import Mathlib

/-!
Verification development for the `hiphtml` package: a navigational cursor
over a parsed HTML tree (`src/parser.go`, helpers in the unnamed file with
`isElem`/`isText`).

Embedding notes.  The external `html.Node` tree (from golang.org/x/net/html)
is a well-formed rose tree presented through parent/first-child/last-child/
next-sibling/prev-sibling pointers.  We embed it as the inductive rose tree
`HTree`; a cursor position (the Go `Parser`'s `node` pointer) is represented
as a zipper: the focused subtree plus a stack of `Frame`s recording, for each
ancestor, its payload and the siblings to the left (stored reversed, nearest
first) and to the right of the path.  Following the `Parent` pointer is
reconstruction of the parent node from the top frame; the nil-checks of the
Go primitives become emptiness checks of the corresponding zipper component.
The Go methods mutate the receiver in place and return `(node, err)`; we
model each as a pure function `Parser → Parser × Option Err` whose first
component is the receiver's state after the call (the returned node, when the
call succeeds, is the `focus` of that state) and whose second component is
the returned error.
-/

/-- Node kinds of the external `html.Node` type (`html.NodeType`). -/
inductive NodeType where
  | ErrorNode
  | TextNode
  | DocumentNode
  | ElementNode
  | CommentNode
  | DoctypeNode
  | RawNode
deriving DecidableEq, Repr

/-- The payload of an `html.Node` that the cursor code inspects: the kind
discriminant (the Go field `Type`; `Type` is a reserved word here, so the
field is called `nodeType`) and the canonical tag identifier `DataAtom`
(`atom.Atom`, a numeric code; its concrete values live in the external
registry and never matter to traversal).  The remaining payload fields of
`html.Node` (`Data`, `Namespace`, `Attr`) are never read by this package's
code and are omitted. -/
structure NodeData where
  nodeType : NodeType
  DataAtom : Nat
deriving DecidableEq, Repr

/-- The external tree of `html.Node`s, as a rose tree: payload plus the list
of children in document order.  The parent/sibling/first-child/last-child
pointers of the Go struct are the standard pointer presentation of this
tree. -/
inductive HTree where
  | mk (data : NodeData) (kids : List HTree)

mutual
/-- Decidable equality of trees. -/
def HTree.decEq : (a b : HTree) → Decidable (a = b)
  | .mk d1 k1, .mk d2 k2 =>
      if h1 : d1 = d2 then
        match HTree.decEqList k1 k2 with
        | isFalse h2 => isFalse (by intro hh; injection hh with e1 e2; exact h2 e2)
        | isTrue h2 => isTrue (by rw [h1, h2])
      else isFalse (by intro hh; injection hh with e1 e2; exact h1 e1)
/-- Decidable equality of lists of trees. -/
def HTree.decEqList : (a b : List HTree) → Decidable (a = b)
  | [], [] => isTrue rfl
  | [], _ :: _ => isFalse (by intro hh; cases hh)
  | _ :: _, [] => isFalse (by intro hh; cases hh)
  | t :: ts, u :: us =>
      match HTree.decEq t u with
      | isFalse h1 => isFalse (by intro hh; injection hh with e1 e2; exact h1 e1)
      | isTrue h1 =>
          match HTree.decEqList ts us with
          | isFalse h2 => isFalse (by intro hh; injection hh with e1 e2; exact h2 e2)
          | isTrue h2 => isTrue (by rw [h1, h2])
end

instance : DecidableEq HTree := HTree.decEq

/-- Payload of a node. -/
def HTree.data : HTree → NodeData
  | .mk d _ => d

/-- Children of a node, in document order. -/
def HTree.kids : HTree → List HTree
  | .mk _ k => k

mutual
/-- Number of nodes of a tree. -/
def HTree.size : HTree → Nat
  | .mk _ kids => 1 + sizeList kids
/-- Total number of nodes of a list of trees. -/
def sizeList : List HTree → Nat
  | [] => 0
  | t :: ts => t.size + sizeList ts
end

mutual
/-- Pre-order listing of the payloads of a tree: each node before its
children, children left to right (document order). -/
def HTree.preorder : HTree → List NodeData
  | .mk d kids => d :: preorderList kids
/-- Concatenated pre-order listings of a list of trees. -/
def preorderList : List HTree → List NodeData
  | [] => []
  | t :: ts => t.preorder ++ preorderList ts
end

/-- `isElem` from the source: a node is an element when its kind is
`ElementNode`. -/
def isElem (n : HTree) : Bool :=
  n.data.nodeType == NodeType.ElementNode

/-- `isText` from the source. -/
def isText (n : HTree) : Bool :=
  n.data.nodeType == NodeType.TextNode

/-- The parser errors `ErrBegOfDoc`, `ErrEndOfDoc`, `ErrNoSuchRelative`. -/
inductive Err where
  | BegOfDoc
  | EndOfDoc
  | NoSuchRelative
deriving DecidableEq, Repr

/-- One ancestor level of a zipper position: the ancestor's payload, the
siblings left of the path (reversed: nearest sibling first) and the siblings
right of the path (in order). -/
structure Frame where
  data : NodeData
  left : List HTree
  right : List HTree
deriving DecidableEq

/-- The Go `Parser` struct: `doc` is the document root (fixed), the pair
`(ctx, focus)` is the current-node pointer `node` presented as a zipper
(`ctx = []` means the cursor is at the root), and `level` is the `level`
counter, a machine integer updated by the moves exactly as in the source. -/
structure Parser where
  doc : HTree
  ctx : List Frame
  focus : HTree
  level : Int
deriving DecidableEq

/-- `NewParser`: the external `html.Parse` builds the tree; the constructor
then binds the cursor to its root with the zero level. -/
def NewParser (doc : HTree) : Parser :=
  { doc := doc, ctx := [], focus := doc, level := 0 }

/-- `Node()`: the current node of the parser. -/
def Parser.Node (p : Parser) : HTree :=
  p.focus

/-- `Level()`: the current level of the parser. -/
def Parser.Level (p : Parser) : Int :=
  p.level

/-- `Reset`: retreat the parser to the beginning of the document. -/
def Parser.Reset (p : Parser) : Parser :=
  { p with ctx := [], focus := p.doc, level := 0 }

/-- `Parent`: move to the parent if it exists (`p.node.Parent != nil`, i.e.
the context is nonempty), decrementing `level`; otherwise fail with
`ErrNoSuchRelative` leaving the state untouched. -/
def Parser.Parent (p : Parser) : Parser × Option Err :=
  match p.ctx with
  | [] => (p, some .NoSuchRelative)
  | f :: rest =>
      ({ p with ctx := rest,
                focus := .mk f.data (f.left.reverse ++ p.focus :: f.right),
                level := p.level - 1 }, none)

/-- `FirstChild`: move to the first child if it exists, incrementing
`level`; otherwise fail with `ErrNoSuchRelative`. -/
def Parser.FirstChild (p : Parser) : Parser × Option Err :=
  match p.focus with
  | .mk _ [] => (p, some .NoSuchRelative)
  | .mk d (c :: cs) =>
      ({ p with ctx := ⟨d, [], cs⟩ :: p.ctx, focus := c, level := p.level + 1 }, none)

/-- `LastChild`: move to the last child if it exists, incrementing `level`;
otherwise fail with `ErrNoSuchRelative`. -/
def Parser.LastChild (p : Parser) : Parser × Option Err :=
  match p.focus with
  | .mk _ [] => (p, some .NoSuchRelative)
  | .mk d (c :: cs) =>
      ({ p with ctx := ⟨d, ((c :: cs).dropLast).reverse, []⟩ :: p.ctx,
                focus := (c :: cs).getLast (by simp),
                level := p.level + 1 }, none)

/-- `NextSibling`: move to the next sibling if it exists (`p.node.NextSibling
!= nil`, i.e. the top frame has a nonempty right part), leaving `level`
unchanged; otherwise fail with `ErrNoSuchRelative`. -/
def Parser.NextSibling (p : Parser) : Parser × Option Err :=
  match p.ctx with
  | [] => (p, some .NoSuchRelative)
  | f :: rest =>
      match f.right with
      | [] => (p, some .NoSuchRelative)
      | y :: r =>
          ({ p with ctx := ⟨f.data, p.focus :: f.left, r⟩ :: rest, focus := y }, none)

/-- `PrevSibling`: move to the previous sibling if it exists, leaving
`level` unchanged; otherwise fail with `ErrNoSuchRelative`. -/
def Parser.PrevSibling (p : Parser) : Parser × Option Err :=
  match p.ctx with
  | [] => (p, some .NoSuchRelative)
  | f :: rest =>
      match f.left with
      | [] => (p, some .NoSuchRelative)
      | x :: l =>
          ({ p with ctx := ⟨f.data, l, p.focus :: f.right⟩ :: rest, focus := x }, none)

/-- A failing `NextSibling` leaves the state untouched and reports
`ErrNoSuchRelative`. -/
theorem Parser.nextSibling_fail {p q : Parser} {e : Err}
    (h : p.NextSibling = (q, some e)) : q = p ∧ e = .NoSuchRelative := by
  obtain ⟨doc, ctx, focus, lvl⟩ := p
  rcases ctx with _ | ⟨⟨d, l, r⟩, rest⟩
  · simp [Parser.NextSibling] at h
    exact ⟨h.1.symm, h.2.symm⟩
  · rcases r with _ | ⟨y, r⟩
    · simp [Parser.NextSibling] at h
      exact ⟨h.1.symm, h.2.symm⟩
    · simp [Parser.NextSibling] at h

/-- A successful `Parent` pops exactly one context frame. -/
theorem Parser.parent_ok_length {p q : Parser}
    (h : p.Parent = (q, none)) : q.ctx.length + 1 = p.ctx.length := by
  obtain ⟨doc, ctx, focus, lvl⟩ := p
  rcases ctx with _ | ⟨f, rest⟩ <;> simp [Parser.Parent] at h
  subst h
  simp

/-- Any member of a list of trees has size at most the list's total size. -/
theorem size_le_of_mem {t : HTree} {ts : List HTree} (hm : t ∈ ts) :
    t.size ≤ sizeList ts := by
  induction ts with
  | nil => cases hm
  | cons u us ih =>
      rcases hm with _ | hm
      · simp [sizeList]
      · have := ih (by assumption); simp [sizeList]; omega

/-- A successful `LastChild` shrinks the focused subtree. -/
theorem Parser.lastChild_ok_size {p q : Parser}
    (h : p.LastChild = (q, none)) : q.focus.size < p.focus.size := by
  obtain ⟨doc, ctx, focus, lvl⟩ := p
  rcases focus with ⟨d, _ | ⟨c, cs⟩⟩ <;> simp [Parser.LastChild] at h
  subst h
  have hmem : (c :: cs).getLast (by simp) ∈ c :: cs := List.getLast_mem (by simp)
  have := size_le_of_mem hmem
  simp [HTree.size, sizeList] at this ⊢
  omega

/-- The `for` loop of `nextSiblingAscending`: repeatedly try `NextSibling`,
falling back to `Parent`; the Boolean reports whether a sibling move ever
succeeded, and the state is wherever the loop stopped (the caller rolls it
back on failure, as the source does). -/
def Parser.ascend (p : Parser) : Parser × Bool :=
  match h1 : p.NextSibling with
  | (q, none) => (q, true)
  | (q, some _) =>
      match h2 : q.Parent with
      | (q2, none) => Parser.ascend q2
      | (q2, some _) => (q2, false)
termination_by p.ctx.length
decreasing_by
  have hq := (Parser.nextSibling_fail h1).1
  have hl := Parser.parent_ok_length h2
  subst hq
  omega

/-- `nextSiblingAscending`: advance to the next sibling, uncle, great uncle,
etc. if one exists; on total failure restore the saved node and level (the
whole position, since `doc` never changes) and fail with
`ErrNoSuchRelative`. -/
def Parser.nextSiblingAscending (p : Parser) : Parser × Option Err :=
  match p.ascend with
  | (q, true) => (q, none)
  | (_, false) => (p, some .NoSuchRelative)

/-- The `for` loop of `prevSiblingDescending`: descend through last children
until none exists.  It cannot fail: an empty element terminates the descent
immediately. -/
def Parser.descend (p : Parser) : Parser :=
  match h1 : p.LastChild with
  | (q, none) => Parser.descend q
  | (q, some _) => q
termination_by p.focus.size
decreasing_by
  exact Parser.lastChild_ok_size h1

/-- `prevSiblingDescending`: retreat to the previous sibling, nephew, great
nephew, etc. if one exists, else fail with `ErrNoSuchRelative`. -/
def Parser.prevSiblingDescending (p : Parser) : Parser × Option Err :=
  match p.PrevSibling with
  | (q, none) => (q.descend, none)
  | (q, some _) => (q, some .NoSuchRelative)

/-- `Next`: advance the parser to the next node in document order if it
exists, else fail with `ErrEndOfDoc`. -/
def Parser.Next (p : Parser) : Parser × Option Err :=
  match p.FirstChild with
  | (q, none) => (q, none)
  | (q, some _) =>
      match q.nextSiblingAscending with
      | (q2, none) => (q2, none)
      | (q2, some _) => (q2, some .EndOfDoc)

/-- `Prev`: retreat the parser to the previous node in document order if it
exists, else fail with `ErrBegOfDoc`. -/
def Parser.Prev (p : Parser) : Parser × Option Err :=
  match p.prevSiblingDescending with
  | (q, none) => (q, none)
  | (q, some _) =>
      match q.Parent with
      | (q2, none) => (q2, none)
      | (q2, some _) => (q2, some .BegOfDoc)

theorem sizeList_append (a b : List HTree) :
    sizeList (a ++ b) = sizeList a + sizeList b := by
  induction a with
  | nil => simp [sizeList]
  | cons t ts ih => simp [sizeList, ih]; omega

theorem sizeList_reverse (a : List HTree) : sizeList a.reverse = sizeList a := by
  induction a with
  | nil => rfl
  | cons t ts ih => simp [sizeList, sizeList_append, ih]; omega

theorem HTree.size_mk (d : NodeData) (kids : List HTree) :
    (HTree.mk d kids).size = 1 + sizeList kids := by
  simp [HTree.size]

theorem preorderList_append (a b : List HTree) :
    preorderList (a ++ b) = preorderList a ++ preorderList b := by
  induction a with
  | nil => simp [preorderList]
  | cons t ts ih => simp [preorderList, ih]

/-- Unfolding `ascend` at the root: both `NextSibling` and `Parent` fail, the
loop exits unsuccessfully. -/
theorem Parser.ascend_nil (doc t lvl) :
    Parser.ascend ⟨doc, [], t, lvl⟩ = (⟨doc, [], t, lvl⟩, false) := by
  rw [Parser.ascend.eq_def]
  simp [Parser.NextSibling, Parser.Parent]

/-- Unfolding `ascend` when a next sibling exists: the loop succeeds at
once. -/
theorem Parser.ascend_sib (doc d l y r rest t lvl) :
    Parser.ascend ⟨doc, ⟨d, l, y :: r⟩ :: rest, t, lvl⟩ =
      (⟨doc, ⟨d, t :: l, r⟩ :: rest, y, lvl⟩, true) := by
  rw [Parser.ascend.eq_def]
  simp [Parser.NextSibling]

/-- Unfolding `ascend` when the current node is a last child: `NextSibling`
fails and the loop retries from the parent. -/
theorem Parser.ascend_up (doc d l rest t lvl) :
    Parser.ascend ⟨doc, ⟨d, l, []⟩ :: rest, t, lvl⟩ =
      Parser.ascend ⟨doc, rest, .mk d (l.reverse ++ [t]), lvl - 1⟩ := by
  rw [Parser.ascend.eq_def]
  simp [Parser.NextSibling, Parser.Parent]

/-- Unfolding `descend` at a childless focus: the loop exits at once. -/
theorem Parser.descend_leaf (doc ctx d lvl) :
    Parser.descend ⟨doc, ctx, .mk d [], lvl⟩ = ⟨doc, ctx, .mk d [], lvl⟩ := by
  rw [Parser.descend.eq_def]
  simp [Parser.LastChild]

/-- Unfolding `descend` at a node with children: move to the last child and
keep going. -/
theorem Parser.descend_ne (doc ctx d kids lvl) (h : kids ≠ []) :
    Parser.descend ⟨doc, ctx, .mk d kids, lvl⟩ =
      Parser.descend ⟨doc, ⟨d, kids.dropLast.reverse, []⟩ :: ctx,
        kids.getLast h, lvl + 1⟩ := by
  rcases kids with _ | ⟨c, cs⟩
  · exact absurd rfl h
  · rw [Parser.descend.eq_def]
    simp [Parser.LastChild]

/-- `descend` seen from the parent: descending from a node whose child list
ends in `t` continues as descending from `t` with the corresponding frame
pushed. -/
theorem Parser.descend_snoc (doc ctx d l t lvl) :
    Parser.descend ⟨doc, ctx, .mk d (l.reverse ++ [t]), lvl⟩ =
      Parser.descend ⟨doc, ⟨d, l, []⟩ :: ctx, t, lvl + 1⟩ := by
  rw [Parser.descend_ne _ _ _ _ _ (by simp)]
  simp [List.dropLast_concat, List.getLast_concat]

/-- Total size of the subtrees hanging to the right of the path: the number
of nodes strictly after the current subtree in document order. -/
def rightsSize : List Frame → Nat
  | [] => 0
  | f :: rest => sizeList f.right + rightsSize rest

/-- Number of nodes strictly after the current node in document order. -/
def Parser.after (p : Parser) : Nat :=
  sizeList p.focus.kids + rightsSize p.ctx

/-- Each context frame contributes its own node and its left subtrees: the
number of nodes strictly before the current node in document order. -/
def leftsSize : List Frame → Nat
  | [] => 0
  | f :: rest => 1 + sizeList f.left + leftsSize rest

/-- Number of nodes strictly before the current node in document order. -/
def Parser.before (p : Parser) : Nat :=
  leftsSize p.ctx

/-- Context frames all of whose right parts are empty: no node of the
document lies after the current subtree. -/
def rightsEmpty : List Frame → Bool
  | [] => true
  | f :: rest => f.right.isEmpty && rightsEmpty rest

/-- A successful ascend lands `p.focus.size` nodes further on in document
order: everything after the landing sibling is what was after the old
subtree, minus that subtree. -/
theorem Parser.ascend_true_after :
    ∀ (ctx : List Frame) (doc t lvl q), Parser.ascend ⟨doc, ctx, t, lvl⟩ = (q, true) →
      q.after + t.size = Parser.after ⟨doc, ctx, t, lvl⟩ := by
  intro ctx
  induction ctx with
  | nil =>
      intro doc t lvl q h
      rw [Parser.ascend_nil] at h
      simp at h
  | cons f rest ih =>
      intro doc t lvl q h
      rcases f with ⟨d, l, r⟩
      rcases r with _ | ⟨y, r⟩
      · rw [Parser.ascend_up] at h
        have h2 := ih doc (.mk d (l.reverse ++ [t])) (lvl - 1) q h
        obtain ⟨td, tk⟩ := t
        simp [Parser.after, HTree.size_mk, sizeList_append, sizeList_reverse,
          sizeList, rightsSize, HTree.kids] at h2 ⊢
        omega
      · rw [Parser.ascend_sib] at h
        injection h with h1 _
        subst h1
        obtain ⟨td, tk⟩ := t
        obtain ⟨yd, yk⟩ := y
        simp [Parser.after, HTree.size_mk, sizeList, rightsSize, HTree.kids]
        omega

/-- A successful ascend moves the cursor exactly `p.focus.size` nodes later
in document order. -/
theorem Parser.ascend_true_before :
    ∀ (ctx : List Frame) (doc t lvl q), Parser.ascend ⟨doc, ctx, t, lvl⟩ = (q, true) →
      q.before = Parser.before ⟨doc, ctx, t, lvl⟩ + t.size := by
  intro ctx
  induction ctx with
  | nil =>
      intro doc t lvl q h
      rw [Parser.ascend_nil] at h
      simp at h
  | cons f rest ih =>
      intro doc t lvl q h
      rcases f with ⟨d, l, r⟩
      rcases r with _ | ⟨y, r⟩
      · rw [Parser.ascend_up] at h
        have h2 := ih doc (.mk d (l.reverse ++ [t])) (lvl - 1) q h
        obtain ⟨td, tk⟩ := t
        simp [Parser.before, HTree.size_mk, sizeList_append, sizeList_reverse,
          sizeList, leftsSize] at h2 ⊢
        omega
      · rw [Parser.ascend_sib] at h
        injection h with h1 _
        subst h1
        obtain ⟨td, tk⟩ := t
        simp [Parser.before, HTree.size_mk, sizeList, leftsSize]
        omega

/-- Ascending preserves the difference between the `level` counter and the
true depth of the cursor (the length of the context). -/
theorem Parser.ascend_true_delta :
    ∀ (ctx : List Frame) (doc t lvl q), Parser.ascend ⟨doc, ctx, t, lvl⟩ = (q, true) →
      q.level - q.ctx.length = lvl - ctx.length := by
  intro ctx
  induction ctx with
  | nil =>
      intro doc t lvl q h
      rw [Parser.ascend_nil] at h
      simp at h
  | cons f rest ih =>
      intro doc t lvl q h
      rcases f with ⟨d, l, r⟩
      rcases r with _ | ⟨y, r⟩
      · rw [Parser.ascend_up] at h
        have h2 := ih doc (.mk d (l.reverse ++ [t])) (lvl - 1) q h
        simp at h2 ⊢
        omega
      · rw [Parser.ascend_sib] at h
        injection h with h1 _
        subst h1
        simp

/-- Ascending never touches the document root reference. -/
theorem Parser.ascend_doc :
    ∀ (ctx : List Frame) (doc t lvl q b), Parser.ascend ⟨doc, ctx, t, lvl⟩ = (q, b) →
      q.doc = doc := by
  intro ctx
  induction ctx with
  | nil =>
      intro doc t lvl q b h
      rw [Parser.ascend_nil] at h
      injection h with h1 _
      subst h1
      rfl
  | cons f rest ih =>
      intro doc t lvl q b h
      rcases f with ⟨d, l, r⟩
      rcases r with _ | ⟨y, r⟩
      · rw [Parser.ascend_up] at h
        exact ih doc _ _ q b h
      · rw [Parser.ascend_sib] at h
        injection h with h1 _
        subst h1
        rfl

/-- The ascend loop fails exactly when every context frame has an empty
right part (no ancestor, the root included, has a further sibling). -/
theorem Parser.ascend_false_iff :
    ∀ (ctx : List Frame) (doc t lvl), (Parser.ascend ⟨doc, ctx, t, lvl⟩).2 = false ↔
      rightsEmpty ctx = true := by
  intro ctx
  induction ctx with
  | nil =>
      intro doc t lvl
      rw [Parser.ascend_nil]
      simp [rightsEmpty]
  | cons f rest ih =>
      intro doc t lvl
      rcases f with ⟨d, l, r⟩
      rcases r with _ | ⟨y, r⟩
      · rw [Parser.ascend_up]
        have hr : rightsEmpty (⟨d, l, ([] : List HTree)⟩ :: rest) = rightsEmpty rest := by
          simp [rightsEmpty]
        rw [hr]
        exact ih doc _ _
      · rw [Parser.ascend_sib]
        simp [rightsEmpty]

theorem HTree.size_pos (t : HTree) : 0 < t.size := by
  obtain ⟨d, k⟩ := t
  simp [HTree.size_mk]

/-- Payloads of the document nodes lying strictly after the current subtree,
in document order: the right parts of the context, innermost first. -/
def restCtx : List Frame → List NodeData
  | [] => []
  | f :: rest => preorderList f.right ++ restCtx rest

/-- Payloads of the current node and every node after it, in document
order. -/
def Parser.remaining (p : Parser) : List NodeData :=
  p.focus.preorder ++ restCtx p.ctx

/-- Payloads of the document nodes strictly before the current node, in
document order: ancestors outermost first, each followed by the pre-orders
of its left siblings. -/
def seenCtx : List Frame → List NodeData
  | [] => []
  | f :: rest => seenCtx rest ++ f.data :: preorderList f.left.reverse

/-- Payloads of every node up to and including the current one, in document
order. -/
def Parser.seen (p : Parser) : List NodeData :=
  seenCtx p.ctx ++ [p.focus.data]


/-- Everything the last-child descent does: it stops on a childless node,
keeps `doc`, advances the position to the deepest trailing descendant
(`before` grows by the focus size minus one, the visited prefix grows by the
whole pre-order of the focus), keeps the level/depth difference, and pushes
only frames with empty right parts. -/
theorem Parser.descend_spec : ∀ (n : Nat) (p : Parser), p.focus.size ≤ n →
    p.descend.focus.kids = [] ∧ p.descend.doc = p.doc ∧
    p.descend.before + 1 = p.before + p.focus.size ∧
    p.descend.level - p.descend.ctx.length = p.level - p.ctx.length ∧
    (rightsEmpty p.ctx = true → rightsEmpty p.descend.ctx = true) ∧
    p.descend.seen = seenCtx p.ctx ++ p.focus.preorder := by
  intro n
  induction n with
  | zero =>
      intro p h
      have := HTree.size_pos p.focus
      omega
  | succ n ih =>
      intro p h
      obtain ⟨doc, ctx, f, lvl⟩ := p
      obtain ⟨d, kids⟩ := f
      rcases kids with _ | ⟨c, cs⟩
      · rw [Parser.descend_leaf]
        simp [Parser.before, Parser.seen, HTree.kids, HTree.size_mk, sizeList,
          HTree.preorder, preorderList, HTree.data]
      · rw [Parser.descend_ne _ _ _ _ _ (by simp)]
        have hlast : (c :: cs).getLast (by simp) ∈ c :: cs := List.getLast_mem (by simp)
        have hsz := size_le_of_mem hlast
        have hb : sizeList (c :: cs) ≤ n := by
          have h' : (HTree.mk d (c :: cs)).size ≤ n + 1 := h
          rw [HTree.size_mk] at h'
          omega
        have harg : ((c :: cs).getLast (by simp)).size ≤ n := le_trans hsz hb
        have hrec := ih ⟨doc, ⟨d, (c :: cs).dropLast.reverse, []⟩ :: ctx,
          (c :: cs).getLast (by simp), lvl + 1⟩ harg
        obtain ⟨h1, h2, h3, h4, h5, h6⟩ := hrec
        have hsp : (c :: cs).dropLast ++ [(c :: cs).getLast (by simp)] = c :: cs :=
          List.dropLast_concat_getLast (by simp)
        refine ⟨h1, h2, ?_, ?_, ?_, ?_⟩
        · have hsplit : sizeList ((c :: cs).dropLast) + ((c :: cs).getLast (by simp)).size
              = sizeList (c :: cs) := by
            conv_rhs => rw [← hsp]
            rw [sizeList_append]
            simp [sizeList]
          simp only [Parser.before, leftsSize, sizeList_reverse, HTree.size_mk] at h3 ⊢
          omega
        · simp only [List.length_cons] at h4 ⊢
          push_cast at h4 ⊢
          omega
        · intro hre
          apply h5
          simp only [rightsEmpty, List.isEmpty, Bool.true_and]
          exact hre
        · rw [h6]
          have hsplit2 : preorderList ((c :: cs).dropLast)
                ++ ((c :: cs).getLast (by simp)).preorder = preorderList (c :: cs) := by
            conv_rhs => rw [← hsp]
            rw [preorderList_append]
            simp [preorderList]
          simp only [seenCtx, HTree.preorder, List.reverse_reverse]
          rw [List.append_assoc, ← hsplit2]
          simp

theorem Parser.descend_kids (p : Parser) : p.descend.focus.kids = [] :=
  (Parser.descend_spec p.focus.size p le_rfl).1

theorem Parser.descend_doc (p : Parser) : p.descend.doc = p.doc :=
  (Parser.descend_spec p.focus.size p le_rfl).2.1

theorem Parser.descend_before (p : Parser) :
    p.descend.before + 1 = p.before + p.focus.size :=
  (Parser.descend_spec p.focus.size p le_rfl).2.2.1

theorem Parser.descend_delta (p : Parser) :
    p.descend.level - p.descend.ctx.length = p.level - p.ctx.length :=
  (Parser.descend_spec p.focus.size p le_rfl).2.2.2.1

theorem Parser.descend_rightsEmpty (p : Parser) (h : rightsEmpty p.ctx = true) :
    rightsEmpty p.descend.ctx = true :=
  (Parser.descend_spec p.focus.size p le_rfl).2.2.2.2.1 h

theorem Parser.descend_seen (p : Parser) :
    p.descend.seen = seenCtx p.ctx ++ p.focus.preorder :=
  (Parser.descend_spec p.focus.size p le_rfl).2.2.2.2.2

/-- Unfolding `Next` when a first child exists. -/
theorem Parser.next_child (doc ctx d c cs lvl) :
    Parser.Next ⟨doc, ctx, .mk d (c :: cs), lvl⟩ =
      (⟨doc, ⟨d, [], cs⟩ :: ctx, c, lvl + 1⟩, none) := by
  simp [Parser.Next, Parser.FirstChild]

/-- Unfolding `Next` on a childless node whose ascend succeeds. -/
theorem Parser.next_leaf_asc (doc ctx d lvl q)
    (h : Parser.ascend ⟨doc, ctx, .mk d [], lvl⟩ = (q, true)) :
    Parser.Next ⟨doc, ctx, .mk d [], lvl⟩ = (q, none) := by
  simp [Parser.Next, Parser.FirstChild, Parser.nextSiblingAscending, h]

/-- Unfolding `Next` on a childless node whose ascend fails: the saved
position is restored and the walk reports `ErrEndOfDoc`. -/
theorem Parser.next_leaf_fail (doc ctx d lvl q)
    (h : Parser.ascend ⟨doc, ctx, .mk d [], lvl⟩ = (q, false)) :
    Parser.Next ⟨doc, ctx, .mk d [], lvl⟩ =
      (⟨doc, ctx, .mk d [], lvl⟩, some .EndOfDoc) := by
  simp [Parser.Next, Parser.FirstChild, Parser.nextSiblingAscending, h]

/-- Unfolding `Prev` when a previous sibling exists: move to it and descend
its last-child chain. -/
theorem Parser.prev_sib (doc d x l r rest t lvl) :
    Parser.Prev ⟨doc, ⟨d, x :: l, r⟩ :: rest, t, lvl⟩ =
      (Parser.descend ⟨doc, ⟨d, l, t :: r⟩ :: rest, x, lvl⟩, none) := by
  simp [Parser.Prev, Parser.prevSiblingDescending, Parser.PrevSibling]

/-- Unfolding `Prev` on a first child: ascend one level to the parent. -/
theorem Parser.prev_up (doc d r rest t lvl) :
    Parser.Prev ⟨doc, ⟨d, [], r⟩ :: rest, t, lvl⟩ =
      (⟨doc, rest, .mk d (t :: r), lvl - 1⟩, none) := by
  simp [Parser.Prev, Parser.prevSiblingDescending, Parser.PrevSibling, Parser.Parent]

/-- Unfolding `Prev` at the root: both moves fail, the state is unchanged
and the walk reports `ErrBegOfDoc`. -/
theorem Parser.prev_root (doc t lvl) :
    Parser.Prev ⟨doc, [], t, lvl⟩ = (⟨doc, [], t, lvl⟩, some .BegOfDoc) := by
  simp [Parser.Prev, Parser.prevSiblingDescending, Parser.PrevSibling, Parser.Parent]

/-- After a successful ascend, what remains to visit is exactly what hung to
the right of the old position's path. -/
theorem Parser.ascend_true_rest :
    ∀ (ctx : List Frame) (doc t lvl q), Parser.ascend ⟨doc, ctx, t, lvl⟩ = (q, true) →
      q.remaining = restCtx ctx := by
  intro ctx
  induction ctx with
  | nil =>
      intro doc t lvl q h
      rw [Parser.ascend_nil] at h
      simp at h
  | cons f rest ih =>
      intro doc t lvl q h
      rcases f with ⟨d, l, r⟩
      rcases r with _ | ⟨y, r⟩
      · rw [Parser.ascend_up] at h
        have h2 := ih doc (.mk d (l.reverse ++ [t])) (lvl - 1) q h
        rw [h2]
        simp [restCtx, preorderList]
      · rw [Parser.ascend_sib] at h
        injection h with h1 _
        subst h1
        simp [Parser.remaining, restCtx, preorderList]

/-- A successful ascend is undone by `prevSiblingDescending`: from the
landing sibling, the previous sibling is the node the ascend popped out of,
and descending its last-child chain retraces the popped frames. -/
theorem Parser.ascend_true_inv :
    ∀ (ctx : List Frame) (doc t lvl q), Parser.ascend ⟨doc, ctx, t, lvl⟩ = (q, true) →
      q.prevSiblingDescending = (Parser.descend ⟨doc, ctx, t, lvl⟩, none) := by
  intro ctx
  induction ctx with
  | nil =>
      intro doc t lvl q h
      rw [Parser.ascend_nil] at h
      simp at h
  | cons f rest ih =>
      intro doc t lvl q h
      rcases f with ⟨d, l, r⟩
      rcases r with _ | ⟨y, r⟩
      · rw [Parser.ascend_up] at h
        have h2 := ih doc (.mk d (l.reverse ++ [t])) (lvl - 1) q h
        rw [h2, Parser.descend_snoc]
        simp
      · rw [Parser.ascend_sib] at h
        injection h with h1 _
        subst h1
        simp [Parser.prevSiblingDescending, Parser.PrevSibling]

/-- Descending to the deepest trailing descendant does not change where an
ascend ends up: the pushed frames all have empty right parts, so the ascend
pops them straight back. -/
theorem Parser.ascend_descend : ∀ (n : Nat) (p : Parser), p.focus.size ≤ n →
    p.descend.ascend = p.ascend := by
  intro n
  induction n with
  | zero =>
      intro p h
      have := HTree.size_pos p.focus
      omega
  | succ n ih =>
      intro p h
      obtain ⟨doc, ctx, f, lvl⟩ := p
      obtain ⟨d, kids⟩ := f
      rcases kids with _ | ⟨c, cs⟩
      · rw [Parser.descend_leaf]
      · rw [Parser.descend_ne _ _ _ _ _ (by simp)]
        have hlast : (c :: cs).getLast (by simp) ∈ c :: cs := List.getLast_mem (by simp)
        have hsz := size_le_of_mem hlast
        have hb : sizeList (c :: cs) ≤ n := by
          have h' : (HTree.mk d (c :: cs)).size ≤ n + 1 := h
          rw [HTree.size_mk] at h'
          omega
        have harg : ((c :: cs).getLast (by simp)).size ≤ n := le_trans hsz hb
        rw [ih ⟨doc, ⟨d, (c :: cs).dropLast.reverse, []⟩ :: ctx,
          (c :: cs).getLast (by simp), lvl + 1⟩ harg]
        rw [Parser.ascend_up]
        have hsp : (c :: cs).dropLast ++ [(c :: cs).getLast (by simp)] = c :: cs :=
          List.dropLast_concat_getLast (by simp)
        simp [List.reverse_reverse, hsp]

/-- `Next` on a childless node with a successful ascend. -/
theorem Parser.next_ok_of_ascend {p q : Parser} (h1 : p.focus.kids = [])
    (h2 : p.ascend = (q, true)) : p.Next = (q, none) := by
  obtain ⟨doc, ctx, ⟨d, kids⟩, lvl⟩ := p
  have : kids = [] := h1
  subst this
  exact Parser.next_leaf_asc doc ctx d lvl q h2

/-- `Next` fails only by restoring the pre-call state and reporting
`ErrEndOfDoc`, and only when the current node is childless and no ancestor
has a further sibling. -/
theorem Parser.next_fail {p q : Parser} {e : Err} (h : p.Next = (q, some e)) :
    q = p ∧ e = .EndOfDoc ∧ p.focus.kids = [] ∧ rightsEmpty p.ctx = true := by
  obtain ⟨doc, ctx, ⟨d, kids⟩, lvl⟩ := p
  rcases kids with _ | ⟨c, cs⟩
  · rcases hasc : Parser.ascend ⟨doc, ctx, .mk d [], lvl⟩ with ⟨q', b⟩
    cases b
    · rw [Parser.next_leaf_fail doc ctx d lvl q' hasc] at h
      injection h with ha hb
      injection hb with hb
      have hre : rightsEmpty ctx = true := by
        rw [← Parser.ascend_false_iff ctx doc (.mk d []) lvl, hasc]
      exact ⟨ha.symm, hb.symm, rfl, hre⟩
    · rw [Parser.next_leaf_asc doc ctx d lvl q' hasc] at h
      simp at h
  · rw [Parser.next_child] at h
    simp at h

/-- Conversely, on a childless node with every right part empty, `Next`
fails in place with `ErrEndOfDoc`. -/
theorem Parser.next_fail_of {p : Parser} (h1 : p.focus.kids = [])
    (h2 : rightsEmpty p.ctx = true) : p.Next = (p, some .EndOfDoc) := by
  obtain ⟨doc, ctx, ⟨d, kids⟩, lvl⟩ := p
  have : kids = [] := h1
  subst this
  rcases hasc : Parser.ascend ⟨doc, ctx, .mk d [], lvl⟩ with ⟨q', b⟩
  cases b
  · exact Parser.next_leaf_fail doc ctx d lvl q' hasc
  · have : (Parser.ascend ⟨doc, ctx, .mk d [], lvl⟩).2 = false :=
      (Parser.ascend_false_iff ctx doc (.mk d []) lvl).2 h2
    rw [hasc] at this
    simp at this

/-- What one successful `Next` step does to the bookkeeping: it moves to the
position exactly one node later in document order (one fewer node after, one
more before, the visit list loses its head), never touches `doc`, and keeps
the level/depth difference. -/
theorem Parser.next_ok_spec {p q : Parser} (h : p.Next = (q, none)) :
    q.after + 1 = p.after ∧ q.before = p.before + 1 ∧
    q.level - q.ctx.length = p.level - p.ctx.length ∧ q.doc = p.doc ∧
    p.remaining = p.focus.data :: q.remaining := by
  obtain ⟨doc, ctx, ⟨d, kids⟩, lvl⟩ := p
  rcases kids with _ | ⟨c, cs⟩
  · rcases hasc : Parser.ascend ⟨doc, ctx, .mk d [], lvl⟩ with ⟨q', b⟩
    cases b
    · rw [Parser.next_leaf_fail doc ctx d lvl q' hasc] at h
      simp at h
    · rw [Parser.next_leaf_asc doc ctx d lvl q' hasc] at h
      injection h with h1 _
      subst h1
      have ha := Parser.ascend_true_after ctx doc (.mk d []) lvl q' hasc
      have hb := Parser.ascend_true_before ctx doc (.mk d []) lvl q' hasc
      have hd := Parser.ascend_true_delta ctx doc (.mk d []) lvl q' hasc
      have hdoc := Parser.ascend_doc ctx doc (.mk d []) lvl q' true hasc
      have hr := Parser.ascend_true_rest ctx doc (.mk d []) lvl q' hasc
      have hone : (HTree.mk d []).size = 1 := by simp [HTree.size_mk, sizeList]
      refine ⟨by omega, by omega, hd, hdoc, ?_⟩
      have hrem : Parser.remaining ⟨doc, ctx, .mk d [], lvl⟩ = d :: restCtx ctx := by
        simp [Parser.remaining, HTree.preorder, preorderList, HTree.data]
      rw [hrem, hr]
      simp [HTree.data]
  · rw [Parser.next_child] at h
    injection h with h1 _
    subst h1
    obtain ⟨cd, ck⟩ := c
    refine ⟨?_, ?_, ?_, rfl, ?_⟩
    · simp [Parser.after, rightsSize, sizeList, HTree.kids, HTree.size_mk]
      omega
    · simp [Parser.before, leftsSize, sizeList]
      omega
    · simp only [List.length_cons]
      push_cast
      omega
    · simp [Parser.remaining, restCtx, HTree.preorder, preorderList, HTree.data]

/-- `Prev` fails only at the root, restoring nothing because nothing moved,
and reports `ErrBegOfDoc`. -/
theorem Parser.prev_fail {p q : Parser} {e : Err} (h : p.Prev = (q, some e)) :
    q = p ∧ e = .BegOfDoc ∧ p.ctx = [] := by
  obtain ⟨doc, ctx, t, lvl⟩ := p
  rcases ctx with _ | ⟨⟨d, l, r⟩, rest⟩
  · rw [Parser.prev_root] at h
    injection h with h1 h2
    injection h2 with h2
    exact ⟨h1.symm, h2.symm, rfl⟩
  · rcases l with _ | ⟨x, l⟩
    · rw [Parser.prev_up] at h
      simp at h
    · rw [Parser.prev_sib] at h
      simp at h

/-- At the root, `Prev` fails in place with `ErrBegOfDoc`. -/
theorem Parser.prev_fail_of {p : Parser} (h : p.ctx = []) :
    p.Prev = (p, some .BegOfDoc) := by
  obtain ⟨doc, ctx, t, lvl⟩ := p
  have : ctx = [] := h
  subst this
  exact Parser.prev_root doc t lvl

/-- What one successful `Prev` step does to the bookkeeping: it moves to the
position exactly one node earlier in document order, never touches `doc`,
keeps the level/depth difference, and the visited prefix loses its last
entry. -/
theorem Parser.prev_ok_spec {p q : Parser} (h : p.Prev = (q, none)) :
    p.before = q.before + 1 ∧
    q.level - q.ctx.length = p.level - p.ctx.length ∧ q.doc = p.doc ∧
    p.seen = q.seen ++ [p.focus.data] := by
  obtain ⟨doc, ctx, t, lvl⟩ := p
  rcases ctx with _ | ⟨⟨d, l, r⟩, rest⟩
  · rw [Parser.prev_root] at h
    simp at h
  · rcases l with _ | ⟨x, l⟩
    · rw [Parser.prev_up] at h
      injection h with h1 _
      subst h1
      refine ⟨?_, ?_, rfl, ?_⟩
      · simp [Parser.before, leftsSize, sizeList]
        omega
      · simp only [List.length_cons]
        push_cast
        omega
      · simp [Parser.seen, seenCtx, preorderList, HTree.data]
    · rw [Parser.prev_sib] at h
      injection h with h1 _
      subst h1
      have hbef := Parser.descend_before ⟨doc, ⟨d, l, t :: r⟩ :: rest, x, lvl⟩
      have hdel := Parser.descend_delta ⟨doc, ⟨d, l, t :: r⟩ :: rest, x, lvl⟩
      have hdoc := Parser.descend_doc ⟨doc, ⟨d, l, t :: r⟩ :: rest, x, lvl⟩
      have hseen := Parser.descend_seen ⟨doc, ⟨d, l, t :: r⟩ :: rest, x, lvl⟩
      refine ⟨?_, ?_, hdoc, ?_⟩
      · simp [Parser.before, leftsSize, sizeList] at hbef ⊢
        omega
      · simp only [List.length_cons] at hdel ⊢
        omega
      · rw [hseen]
        simp [Parser.seen, seenCtx, preorderList, preorderList_append, HTree.data]

/-- A successful `Next` is undone exactly by `Prev`: the whole parser state
(current node, context, level) returns to its pre-`Next` value. -/
theorem Parser.next_prev {p q : Parser} (h : p.Next = (q, none)) :
    q.Prev = (p, none) := by
  obtain ⟨doc, ctx, ⟨d, kids⟩, lvl⟩ := p
  rcases kids with _ | ⟨c, cs⟩
  · rcases hasc : Parser.ascend ⟨doc, ctx, .mk d [], lvl⟩ with ⟨q', b⟩
    cases b
    · rw [Parser.next_leaf_fail doc ctx d lvl q' hasc] at h
      simp at h
    · rw [Parser.next_leaf_asc doc ctx d lvl q' hasc] at h
      injection h with h1 _
      subst h1
      have hinv := Parser.ascend_true_inv ctx doc (.mk d []) lvl q' hasc
      rw [Parser.descend_leaf] at hinv
      unfold Parser.Prev
      rw [hinv]
  · rw [Parser.next_child] at h
    injection h with h1 _
    subst h1
    rw [Parser.prev_up]
    simp

/-- A successful `Prev` is undone exactly by `Next`: the whole parser state
returns to its pre-`Prev` value. -/
theorem Parser.prev_next {p q : Parser} (h : p.Prev = (q, none)) :
    q.Next = (p, none) := by
  obtain ⟨doc, ctx, t, lvl⟩ := p
  rcases ctx with _ | ⟨⟨d, l, r⟩, rest⟩
  · rw [Parser.prev_root] at h
    simp at h
  · rcases l with _ | ⟨x, l⟩
    · rw [Parser.prev_up] at h
      injection h with h1 _
      subst h1
      rw [Parser.next_child]
      simp
    · rw [Parser.prev_sib] at h
      injection h with h1 _
      subst h1
      have hkids := Parser.descend_kids ⟨doc, ⟨d, l, t :: r⟩ :: rest, x, lvl⟩
      have hasc2 : (Parser.descend ⟨doc, ⟨d, l, t :: r⟩ :: rest, x, lvl⟩).ascend =
          (⟨doc, ⟨d, x :: l, r⟩ :: rest, t, lvl⟩, true) := by
        rw [Parser.ascend_descend x.size ⟨doc, ⟨d, l, t :: r⟩ :: rest, x, lvl⟩ le_rfl]
        exact Parser.ascend_sib doc d l t r rest x lvl
      exact Parser.next_ok_of_ascend hkids hasc2

/-- `NextElement`: advance to the next element node if it exists; on
exhaustion report `ErrEndOfDoc`, leaving the cursor wherever the last
successful step landed (no rollback). -/
def Parser.NextElement (p : Parser) : Parser × Option Err :=
  if isElem p.focus then (p, none)
  else
    match h : p.Next with
    | (q, none) => q.NextElement
    | (q, some _) => (q, some .EndOfDoc)
termination_by p.after
decreasing_by
  have := (Parser.next_ok_spec h).1
  omega

/-- `PrevElement`: retreat to the previous element node if it exists; on
exhaustion report `ErrBegOfDoc`, leaving the cursor wherever the last
successful step landed (no rollback). -/
def Parser.PrevElement (p : Parser) : Parser × Option Err :=
  if isElem p.focus then (p, none)
  else
    match h : p.Prev with
    | (q, none) => q.PrevElement
    | (q, some _) => (q, some .BegOfDoc)
termination_by p.before
decreasing_by
  have := (Parser.prev_ok_spec h).1
  omega

/-- The shared search loop of `FirstElementByAtom` and `NextElementByAtom`:
step with `Next` until the current node is an element carrying the requested
atom, propagating the `Next` error verbatim on exhaustion. -/
def Parser.findAtomLoop (a : Nat) (p : Parser) : Parser × Option Err :=
  if isElem p.focus && (p.focus.data.DataAtom == a) then (p, none)
  else
    match h : p.Next with
    | (q, none) => Parser.findAtomLoop a q
    | (q, some e) => (q, some e)
termination_by p.after
decreasing_by
  have := (Parser.next_ok_spec h).1
  omega

/-- `FirstElementByAtom`: reset to the root, step once with `Next`, then
search; a `Next` failure is propagated verbatim. -/
def Parser.FirstElementByAtom (p : Parser) (a : Nat) : Parser × Option Err :=
  match p.Reset.Next with
  | (q, none) => Parser.findAtomLoop a q
  | (q, some e) => (q, some e)

/-- `NextElementByAtom`: step once with `Next` from the current position,
then search; a `Next` failure is propagated verbatim. -/
def Parser.NextElementByAtom (p : Parser) (a : Nat) : Parser × Option Err :=
  match p.Next with
  | (q, none) => Parser.findAtomLoop a q
  | (q, some e) => (q, some e)

/-- The canonical identifiers `atom.Body`, `atom.Head`, `atom.Meta` of the
external registry.  The registry guarantees distinct codes per tag name; the
cursor code only ever compares them for equality, so the concrete values are
immaterial. -/
def atomBody : Nat := 1

/-- The canonical identifier `atom.Head`. -/
def atomHead : Nat := 2

/-- The canonical identifier `atom.Meta`. -/
def atomMeta : Nat := 3

/-- `Body`: advance to the body element of the document. -/
def Parser.Body (p : Parser) : Parser × Option Err :=
  p.FirstElementByAtom atomBody

/-- `Head`: advance to the head element of the document. -/
def Parser.Head (p : Parser) : Parser × Option Err :=
  p.FirstElementByAtom atomHead

/-- `FirstMeta`: advance to the first meta tag of the document. -/
def Parser.FirstMeta (p : Parser) : Parser × Option Err :=
  p.FirstElementByAtom atomMeta

/-- `NextMeta`: advance to the next meta tag of the document. -/
def Parser.NextMeta (p : Parser) : Parser × Option Err :=
  p.NextElementByAtom atomMeta

/-- Observation function: the payloads of the nodes visited by standing on
`p` and repeatedly calling `Next` until it fails. -/
def Parser.run (p : Parser) : List NodeData :=
  p.focus.data ::
    (match h : p.Next with
     | (q, none) => q.run
     | (_, some _) => [])
termination_by p.after
decreasing_by
  have := (Parser.next_ok_spec h).1
  omega

/-- Observation function: the payloads of the nodes visited by standing on
`p` and repeatedly calling `Prev` until it fails. -/
def Parser.prevRun (p : Parser) : List NodeData :=
  p.focus.data ::
    (match h : p.Prev with
     | (q, none) => q.prevRun
     | (_, some _) => [])
termination_by p.before
decreasing_by
  have := (Parser.prev_ok_spec h).1
  omega

/-- Reassembling the document from a zipper position. -/
def plugCtx : List Frame → HTree → HTree
  | [], t => t
  | f :: rest, t => plugCtx rest (.mk f.data (f.left.reverse ++ t :: f.right))

/-- The document a parser state is a position in. -/
def Parser.plug (p : Parser) : HTree :=
  plugCtx p.ctx p.focus

theorem Parser.run_ok {p q : Parser} (h : p.Next = (q, none)) :
    p.run = p.focus.data :: q.run := by
  rw [Parser.run.eq_def, h]

theorem Parser.run_fail {p q : Parser} {e : Err} (h : p.Next = (q, some e)) :
    p.run = [p.focus.data] := by
  rw [Parser.run.eq_def, h]

theorem Parser.prevRun_ok {p q : Parser} (h : p.Prev = (q, none)) :
    p.prevRun = p.focus.data :: q.prevRun := by
  rw [Parser.prevRun.eq_def, h]

theorem Parser.prevRun_fail {p q : Parser} {e : Err} (h : p.Prev = (q, some e)) :
    p.prevRun = [p.focus.data] := by
  rw [Parser.prevRun.eq_def, h]

theorem restCtx_nil_of_rightsEmpty :
    ∀ (ctx : List Frame), rightsEmpty ctx = true → restCtx ctx = [] := by
  intro ctx h
  induction ctx with
  | nil => rfl
  | cons f rest ih =>
      simp [rightsEmpty] at h
      obtain ⟨h1, h2⟩ := h
      have : f.right = [] := by
        rcases hr : f.right with _ | _
        · rfl
        · rw [hr] at h1; simp at h1
      simp [restCtx, this, preorderList, ih h2]

/-- The head plus tail reading of `remaining`. -/
theorem Parser.remaining_cons (p : Parser) :
    p.remaining = p.focus.data :: (preorderList p.focus.kids ++ restCtx p.ctx) := by
  obtain ⟨doc, ctx, ⟨d, kids⟩, lvl⟩ := p
  simp [Parser.remaining, HTree.preorder, HTree.data, HTree.kids]

/-- Iterating `Next` to exhaustion visits exactly the nodes at and after the
current position, in document order. -/
theorem Parser.run_eq : ∀ (n : Nat) (p : Parser), p.after ≤ n →
    p.run = p.remaining := by
  intro n
  induction n with
  | zero =>
      intro p h
      rcases hn : p.Next with ⟨q, oe⟩
      rcases oe with _ | e
      · have := (Parser.next_ok_spec hn).1
        omega
      · rw [Parser.run_fail hn]
        obtain ⟨_, _, hk, hre⟩ := Parser.next_fail hn
        rw [Parser.remaining_cons, hk, restCtx_nil_of_rightsEmpty _ hre]
        simp [preorderList]
  | succ n ih =>
      intro p h
      rcases hn : p.Next with ⟨q, oe⟩
      rcases oe with _ | e
      · rw [Parser.run_ok hn]
        have hs := Parser.next_ok_spec hn
        rw [ih q (by omega)]
        rw [hs.2.2.2.2]
      · rw [Parser.run_fail hn]
        obtain ⟨_, _, hk, hre⟩ := Parser.next_fail hn
        rw [Parser.remaining_cons, hk, restCtx_nil_of_rightsEmpty _ hre]
        simp [preorderList]

/-- Iterating `Prev` to exhaustion visits exactly the nodes at and before
the current position, in reverse document order. -/
theorem Parser.prevRun_eq : ∀ (n : Nat) (p : Parser), p.before ≤ n →
    p.prevRun = p.seen.reverse := by
  intro n
  induction n with
  | zero =>
      intro p h
      rcases hn : p.Prev with ⟨q, oe⟩
      rcases oe with _ | e
      · have := (Parser.prev_ok_spec hn).1
        omega
      · rw [Parser.prevRun_fail hn]
        obtain ⟨_, _, hc⟩ := Parser.prev_fail hn
        simp [Parser.seen, hc, seenCtx]
  | succ n ih =>
      intro p h
      rcases hn : p.Prev with ⟨q, oe⟩
      rcases oe with _ | e
      · rw [Parser.prevRun_ok hn]
        have hs := Parser.prev_ok_spec hn
        rw [ih q (by omega)]
        rw [hs.2.2.2]
        simp
      · rw [Parser.prevRun_fail hn]
        obtain ⟨_, _, hc⟩ := Parser.prev_fail hn
        simp [Parser.seen, hc, seenCtx]

/-- Ascending reassembles the same document. -/
theorem Parser.ascend_true_plug :
    ∀ (ctx : List Frame) (doc t lvl q), Parser.ascend ⟨doc, ctx, t, lvl⟩ = (q, true) →
      q.plug = Parser.plug ⟨doc, ctx, t, lvl⟩ := by
  intro ctx
  induction ctx with
  | nil =>
      intro doc t lvl q h
      rw [Parser.ascend_nil] at h
      simp at h
  | cons f rest ih =>
      intro doc t lvl q h
      rcases f with ⟨d, l, r⟩
      rcases r with _ | ⟨y, r⟩
      · rw [Parser.ascend_up] at h
        have h2 := ih doc (.mk d (l.reverse ++ [t])) (lvl - 1) q h
        rw [h2]
        simp [Parser.plug, plugCtx]
      · rw [Parser.ascend_sib] at h
        injection h with h1 _
        subst h1
        simp [Parser.plug, plugCtx]

/-- A `Next` step reassembles the same document. -/
theorem Parser.next_ok_plug {p q : Parser} (h : p.Next = (q, none)) :
    q.plug = p.plug := by
  obtain ⟨doc, ctx, ⟨d, kids⟩, lvl⟩ := p
  rcases kids with _ | ⟨c, cs⟩
  · rcases hasc : Parser.ascend ⟨doc, ctx, .mk d [], lvl⟩ with ⟨q', b⟩
    cases b
    · rw [Parser.next_leaf_fail doc ctx d lvl q' hasc] at h
      simp at h
    · rw [Parser.next_leaf_asc doc ctx d lvl q' hasc] at h
      injection h with h1 _
      subst h1
      exact Parser.ascend_true_plug ctx doc (.mk d []) lvl q' hasc
  · rw [Parser.next_child] at h
    injection h with h1 _
    subst h1
    simp [Parser.plug, plugCtx]

/-- In a given document there is exactly one position that is childless with
every right part empty and a consistent level: the one the last-child
descent from the root reaches. -/
theorem Parser.lastpos_unique :
    ∀ (ctx : List Frame) (D t : HTree) (lvl : Int),
      rightsEmpty ctx = true → lvl = (ctx.length : Int) →
      Parser.descend ⟨D, [], plugCtx ctx t, 0⟩ = Parser.descend ⟨D, ctx, t, lvl⟩ := by
  intro ctx
  induction ctx with
  | nil =>
      intro D t lvl _ hlvl
      subst hlvl
      rfl
  | cons f rest ih =>
      intro D t lvl hre hlvl
      rcases f with ⟨d, l, r⟩
      have hr : r = [] := by
        simp [rightsEmpty] at hre
        rcases hrr : r with _ | _
        · rfl
        · rw [hrr] at hre; simp at hre
      have hre2 : rightsEmpty rest = true := by
        simp [rightsEmpty] at hre
        exact hre.2
      subst hr
      have h2 := ih D (.mk d (l.reverse ++ [t])) (rest.length : Int) hre2 rfl
      have hplug : plugCtx (⟨d, l, ([] : List HTree)⟩ :: rest) t
          = plugCtx rest (.mk d (l.reverse ++ [t])) := by
        simp [plugCtx]
      rw [hplug, h2, Parser.descend_snoc]
      subst hlvl
      simp

/-- The guard of the search loop, read off the payload. -/
def matchAtom (a : Nat) (d : NodeData) : Bool :=
  (d.nodeType == NodeType.ElementNode) && (d.DataAtom == a)

theorem Parser.cond_eq_matchAtom (a : Nat) (p : Parser) :
    (isElem p.focus && (p.focus.data.DataAtom == a)) = matchAtom a p.focus.data := rfl

theorem Parser.findLoop_hit {a : Nat} {p : Parser}
    (h : matchAtom a p.focus.data = true) :
    Parser.findAtomLoop a p = (p, none) := by
  rw [Parser.findAtomLoop.eq_def]
  rw [if_pos (by rw [Parser.cond_eq_matchAtom, h])]

theorem Parser.findLoop_step {a : Nat} {p q : Parser}
    (hc : matchAtom a p.focus.data = false) (h : p.Next = (q, none)) :
    Parser.findAtomLoop a p = Parser.findAtomLoop a q := by
  rw [Parser.findAtomLoop.eq_def]
  rw [if_neg (by rw [Parser.cond_eq_matchAtom, hc]; simp), h]

theorem Parser.findLoop_exhaust {a : Nat} {p q : Parser} {e : Err}
    (hc : matchAtom a p.focus.data = false) (h : p.Next = (q, some e)) :
    Parser.findAtomLoop a p = (q, some e) := by
  rw [Parser.findAtomLoop.eq_def]
  rw [if_neg (by rw [Parser.cond_eq_matchAtom, hc]; simp), h]

/-- A successful search finds the first matching payload in the part of the
document at or after the starting position, lands the cursor strictly no
earlier than it started, and stops on a match. -/
theorem Parser.findLoop_ok_spec : ∀ (n a : Nat) (p q : Parser), p.after ≤ n →
    Parser.findAtomLoop a p = (q, none) →
    List.find? (matchAtom a) p.remaining = some q.focus.data ∧
    p.before ≤ q.before ∧ matchAtom a q.focus.data = true := by
  intro n
  induction n with
  | zero =>
      intro a p q hb h
      rcases hcond : matchAtom a p.focus.data with _ | _
      · rcases hn : p.Next with ⟨q', oe⟩
        rcases oe with _ | e
        · have := (Parser.next_ok_spec hn).1
          omega
        · rw [Parser.findLoop_exhaust hcond hn] at h
          simp at h
      · rw [Parser.findLoop_hit hcond] at h
        injection h with h1 _
        subst h1
        refine ⟨?_, le_rfl, hcond⟩
        rw [Parser.remaining_cons]
        exact List.find?_cons_of_pos _ hcond
  | succ n ih =>
      intro a p q hb h
      rcases hcond : matchAtom a p.focus.data with _ | _
      · rcases hn : p.Next with ⟨q', oe⟩
        rcases oe with _ | e
        · rw [Parser.findLoop_step hcond hn] at h
          have hs := Parser.next_ok_spec hn
          have hrec := ih a q' q (by omega) h
          refine ⟨?_, by omega, hrec.2.2⟩
          rw [hs.2.2.2.2]
          rw [List.find?_cons_of_neg _ (by simp [hcond])]
          exact hrec.1
        · rw [Parser.findLoop_exhaust hcond hn] at h
          simp at h
      · rw [Parser.findLoop_hit hcond] at h
        injection h with h1 _
        subst h1
        refine ⟨?_, le_rfl, hcond⟩
        rw [Parser.remaining_cons]
        exact List.find?_cons_of_pos _ hcond

/-- A failed search propagates `ErrEndOfDoc`, finds no matching payload at
or after the starting position, and leaves the cursor parked on the final
node of the document: childless, nothing to its right, same document, level
still tracking depth. -/
theorem Parser.findLoop_fail_spec : ∀ (n a : Nat) (p q : Parser) (e : Err), p.after ≤ n →
    Parser.findAtomLoop a p = (q, some e) →
    e = .EndOfDoc ∧ List.find? (matchAtom a) p.remaining = none ∧
    q.focus.kids = [] ∧ rightsEmpty q.ctx = true ∧ q.doc = p.doc ∧
    q.level - q.ctx.length = p.level - p.ctx.length ∧ q.plug = p.plug := by
  intro n
  induction n with
  | zero =>
      intro a p q e hb h
      rcases hcond : matchAtom a p.focus.data with _ | _
      · rcases hn : p.Next with ⟨q', oe⟩
        rcases oe with _ | e'
        · have := (Parser.next_ok_spec hn).1
          omega
        · rw [Parser.findLoop_exhaust hcond hn] at h
          injection h with h1 h2
          injection h2 with h2
          subst h1
          obtain ⟨hq, he, hk, hre⟩ := Parser.next_fail hn
          subst hq
          subst h2
          refine ⟨he, ?_, hk, hre, rfl, rfl, rfl⟩
          rw [Parser.remaining_cons, hk, restCtx_nil_of_rightsEmpty _ hre]
          simp [preorderList, List.find?, hcond]
      · rw [Parser.findLoop_hit hcond] at h
        simp at h
  | succ n ih =>
      intro a p q e hb h
      rcases hcond : matchAtom a p.focus.data with _ | _
      · rcases hn : p.Next with ⟨q', oe⟩
        rcases oe with _ | e'
        · rw [Parser.findLoop_step hcond hn] at h
          have hs := Parser.next_ok_spec hn
          have hplug := Parser.next_ok_plug hn
          have hrec := ih a q' q e (by omega) h
          refine ⟨hrec.1, ?_, hrec.2.2.1, hrec.2.2.2.1, ?_, ?_, ?_⟩
          · rw [hs.2.2.2.2, List.find?_cons_of_neg _ (by simp [hcond])]
            exact hrec.2.1
          · rw [hrec.2.2.2.2.1, hs.2.2.2.1]
          · rw [hrec.2.2.2.2.2.1, hs.2.2.1]
          · rw [hrec.2.2.2.2.2.2, hplug]
        · rw [Parser.findLoop_exhaust hcond hn] at h
          injection h with h1 h2
          injection h2 with h2
          subst h1
          obtain ⟨hq, he, hk, hre⟩ := Parser.next_fail hn
          subst hq
          subst h2
          refine ⟨he, ?_, hk, hre, rfl, rfl, rfl⟩
          rw [Parser.remaining_cons, hk, restCtx_nil_of_rightsEmpty _ hre]
          simp [preorderList, List.find?, hcond]
      · rw [Parser.findLoop_hit hcond] at h
        simp at h

/-- The `level` invariant the cursor maintains: the counter equals the true
tree-depth of the current node relative to the root, that is, the number of
ancestors recorded in the zipper context. -/
def Parser.inv (p : Parser) : Prop :=
  p.level = (p.ctx.length : Int)

theorem Parser.parent_delta (p : Parser) :
    (p.Parent).1.level - (p.Parent).1.ctx.length = p.level - p.ctx.length := by
  obtain ⟨doc, ctx, t, lvl⟩ := p
  rcases ctx with _ | ⟨f, rest⟩
  · rfl
  · simp [Parser.Parent]
    push_cast
    omega

theorem Parser.firstChild_delta (p : Parser) :
    (p.FirstChild).1.level - (p.FirstChild).1.ctx.length = p.level - p.ctx.length := by
  obtain ⟨doc, ctx, ⟨d, kids⟩, lvl⟩ := p
  rcases kids with _ | ⟨c, cs⟩
  · rfl
  · simp [Parser.FirstChild]

theorem Parser.lastChild_delta (p : Parser) :
    (p.LastChild).1.level - (p.LastChild).1.ctx.length = p.level - p.ctx.length := by
  obtain ⟨doc, ctx, ⟨d, kids⟩, lvl⟩ := p
  rcases kids with _ | ⟨c, cs⟩
  · rfl
  · simp [Parser.LastChild]

theorem Parser.nextSibling_delta (p : Parser) :
    (p.NextSibling).1.level - (p.NextSibling).1.ctx.length = p.level - p.ctx.length := by
  obtain ⟨doc, ctx, t, lvl⟩ := p
  rcases ctx with _ | ⟨⟨d, l, r⟩, rest⟩
  · rfl
  · rcases r with _ | ⟨y, r⟩
    · rfl
    · simp [Parser.NextSibling]

theorem Parser.prevSibling_delta (p : Parser) :
    (p.PrevSibling).1.level - (p.PrevSibling).1.ctx.length = p.level - p.ctx.length := by
  obtain ⟨doc, ctx, t, lvl⟩ := p
  rcases ctx with _ | ⟨⟨d, l, r⟩, rest⟩
  · rfl
  · rcases l with _ | ⟨x, l⟩
    · rfl
    · simp [Parser.PrevSibling]

theorem Parser.next_delta (p : Parser) :
    (p.Next).1.level - (p.Next).1.ctx.length = p.level - p.ctx.length := by
  rcases hn : p.Next with ⟨q, oe⟩
  rcases oe with _ | e
  · exact (Parser.next_ok_spec hn).2.2.1
  · obtain ⟨hq, _, _, _⟩ := Parser.next_fail hn
    subst hq
    rfl

theorem Parser.prev_delta (p : Parser) :
    (p.Prev).1.level - (p.Prev).1.ctx.length = p.level - p.ctx.length := by
  rcases hn : p.Prev with ⟨q, oe⟩
  rcases oe with _ | e
  · exact (Parser.prev_ok_spec hn).2.1
  · obtain ⟨hq, _, _⟩ := Parser.prev_fail hn
    subst hq
    rfl

theorem Parser.nextElement_hit {p : Parser} (h : isElem p.focus = true) :
    p.NextElement = (p, none) := by
  rw [Parser.NextElement.eq_def, if_pos h]

theorem Parser.nextElement_step {p q : Parser} (hc : isElem p.focus = false)
    (h : p.Next = (q, none)) : p.NextElement = q.NextElement := by
  rw [Parser.NextElement.eq_def, if_neg (by simp [hc]), h]

theorem Parser.nextElement_exhaust {p q : Parser} {e : Err}
    (hc : isElem p.focus = false) (h : p.Next = (q, some e)) :
    p.NextElement = (q, some .EndOfDoc) := by
  rw [Parser.NextElement.eq_def, if_neg (by simp [hc]), h]

theorem Parser.prevElement_hit {p : Parser} (h : isElem p.focus = true) :
    p.PrevElement = (p, none) := by
  rw [Parser.PrevElement.eq_def, if_pos h]

theorem Parser.prevElement_step {p q : Parser} (hc : isElem p.focus = false)
    (h : p.Prev = (q, none)) : p.PrevElement = q.PrevElement := by
  rw [Parser.PrevElement.eq_def, if_neg (by simp [hc]), h]

theorem Parser.prevElement_exhaust {p q : Parser} {e : Err}
    (hc : isElem p.focus = false) (h : p.Prev = (q, some e)) :
    p.PrevElement = (q, some .BegOfDoc) := by
  rw [Parser.PrevElement.eq_def, if_neg (by simp [hc]), h]

theorem Parser.nextElement_delta : ∀ (n : Nat) (p : Parser), p.after ≤ n →
    (p.NextElement).1.level - (p.NextElement).1.ctx.length = p.level - p.ctx.length := by
  intro n
  induction n with
  | zero =>
      intro p hb
      rcases hc : isElem p.focus with _ | _
      · rcases hn : p.Next with ⟨q, oe⟩
        rcases oe with _ | e
        · have := (Parser.next_ok_spec hn).1
          omega
        · rw [Parser.nextElement_exhaust hc hn]
          obtain ⟨hq, _, _, _⟩ := Parser.next_fail hn
          subst hq
          rfl
      · rw [Parser.nextElement_hit hc]
  | succ n ih =>
      intro p hb
      rcases hc : isElem p.focus with _ | _
      · rcases hn : p.Next with ⟨q, oe⟩
        rcases oe with _ | e
        · rw [Parser.nextElement_step hc hn]
          have hs := Parser.next_ok_spec hn
          rw [ih q (by omega)]
          exact hs.2.2.1
        · rw [Parser.nextElement_exhaust hc hn]
          obtain ⟨hq, _, _, _⟩ := Parser.next_fail hn
          subst hq
          rfl
      · rw [Parser.nextElement_hit hc]

theorem Parser.prevElement_delta : ∀ (n : Nat) (p : Parser), p.before ≤ n →
    (p.PrevElement).1.level - (p.PrevElement).1.ctx.length = p.level - p.ctx.length := by
  intro n
  induction n with
  | zero =>
      intro p hb
      rcases hc : isElem p.focus with _ | _
      · rcases hn : p.Prev with ⟨q, oe⟩
        rcases oe with _ | e
        · have := (Parser.prev_ok_spec hn).1
          omega
        · rw [Parser.prevElement_exhaust hc hn]
          obtain ⟨hq, _, _⟩ := Parser.prev_fail hn
          subst hq
          rfl
      · rw [Parser.prevElement_hit hc]
  | succ n ih =>
      intro p hb
      rcases hc : isElem p.focus with _ | _
      · rcases hn : p.Prev with ⟨q, oe⟩
        rcases oe with _ | e
        · rw [Parser.prevElement_step hc hn]
          have hs := Parser.prev_ok_spec hn
          rw [ih q (by omega)]
          exact hs.2.1
        · rw [Parser.prevElement_exhaust hc hn]
          obtain ⟨hq, _, _⟩ := Parser.prev_fail hn
          subst hq
          rfl
      · rw [Parser.prevElement_hit hc]

theorem Parser.findLoop_delta : ∀ (n a : Nat) (p : Parser), p.after ≤ n →
    (Parser.findAtomLoop a p).1.level - (Parser.findAtomLoop a p).1.ctx.length
      = p.level - p.ctx.length := by
  intro n
  induction n with
  | zero =>
      intro a p hb
      rcases hcond : matchAtom a p.focus.data with _ | _
      · rcases hn : p.Next with ⟨q, oe⟩
        rcases oe with _ | e
        · have := (Parser.next_ok_spec hn).1
          omega
        · rw [Parser.findLoop_exhaust hcond hn]
          obtain ⟨hq, _, _, _⟩ := Parser.next_fail hn
          subst hq
          rfl
      · rw [Parser.findLoop_hit hcond]
  | succ n ih =>
      intro a p hb
      rcases hcond : matchAtom a p.focus.data with _ | _
      · rcases hn : p.Next with ⟨q, oe⟩
        rcases oe with _ | e
        · rw [Parser.findLoop_step hcond hn]
          have hs := Parser.next_ok_spec hn
          rw [ih a q (by omega)]
          exact hs.2.2.1
        · rw [Parser.findLoop_exhaust hcond hn]
          obtain ⟨hq, _, _, _⟩ := Parser.next_fail hn
          subst hq
          rfl
      · rw [Parser.findLoop_hit hcond]

/-- `k` successful `Next` steps from `p`, if the walk allows them. -/
def Parser.nextN : Nat → Parser → Option Parser
  | 0, p => some p
  | k + 1, p =>
      match p.Next with
      | (q, none) => Parser.nextN k q
      | (_, some _) => none

/-- `k` successful `Prev` steps from `p`, if the walk allows them. -/
def Parser.prevN : Nat → Parser → Option Parser
  | 0, p => some p
  | k + 1, p =>
      match p.Prev with
      | (q, none) => Parser.prevN k q
      | (_, some _) => none

/-- When `NextElement` fails it reports `ErrEndOfDoc` and parks the cursor,
without rollback, on the last node the walk reached: a non-element on which
`Next` itself fails, reached from the starting position by a chain of
successful `Next` steps. -/
theorem Parser.nextElement_fail_spec : ∀ (n : Nat) (p q : Parser) (e : Err),
    p.after ≤ n → p.NextElement = (q, some e) →
    e = .EndOfDoc ∧ isElem q.focus = false ∧ q.Next = (q, some .EndOfDoc) ∧
    ∃ k, Parser.nextN k p = some q := by
  intro n
  induction n with
  | zero =>
      intro p q e hb h
      rcases hc : isElem p.focus with _ | _
      · rcases hn : p.Next with ⟨q', oe⟩
        rcases oe with _ | e'
        · have := (Parser.next_ok_spec hn).1
          omega
        · rw [Parser.nextElement_exhaust hc hn] at h
          injection h with h1 h2
          injection h2 with h2
          subst h1
          obtain ⟨hq, _, hk, hre⟩ := Parser.next_fail hn
          subst hq
          exact ⟨h2.symm, hc, Parser.next_fail_of hk hre, 0, rfl⟩
      · rw [Parser.nextElement_hit hc] at h
        simp at h
  | succ n ih =>
      intro p q e hb h
      rcases hc : isElem p.focus with _ | _
      · rcases hn : p.Next with ⟨q', oe⟩
        rcases oe with _ | e'
        · rw [Parser.nextElement_step hc hn] at h
          have hs := Parser.next_ok_spec hn
          obtain ⟨he, hel, hqn, k, hk⟩ := ih q' q e (by omega) h
          refine ⟨he, hel, hqn, k + 1, ?_⟩
          simp only [Parser.nextN]
          rw [hn]
          exact hk
        · rw [Parser.nextElement_exhaust hc hn] at h
          injection h with h1 h2
          injection h2 with h2
          subst h1
          obtain ⟨hq, _, hk, hre⟩ := Parser.next_fail hn
          subst hq
          exact ⟨h2.symm, hc, Parser.next_fail_of hk hre, 0, rfl⟩
      · rw [Parser.nextElement_hit hc] at h
        simp at h

/-- When `PrevElement` fails it reports `ErrBegOfDoc` and parks the cursor,
without rollback, on the root (the last node the backward walk reached): a
non-element on which `Prev` itself fails, reached from the starting position
by a chain of successful `Prev` steps. -/
theorem Parser.prevElement_fail_spec : ∀ (n : Nat) (p q : Parser) (e : Err),
    p.before ≤ n → p.PrevElement = (q, some e) →
    e = .BegOfDoc ∧ isElem q.focus = false ∧ q.Prev = (q, some .BegOfDoc) ∧
    ∃ k, Parser.prevN k p = some q := by
  intro n
  induction n with
  | zero =>
      intro p q e hb h
      rcases hc : isElem p.focus with _ | _
      · rcases hn : p.Prev with ⟨q', oe⟩
        rcases oe with _ | e'
        · have := (Parser.prev_ok_spec hn).1
          omega
        · rw [Parser.prevElement_exhaust hc hn] at h
          injection h with h1 h2
          injection h2 with h2
          subst h1
          obtain ⟨hq, _, hctx⟩ := Parser.prev_fail hn
          subst hq
          exact ⟨h2.symm, hc, Parser.prev_fail_of hctx, 0, rfl⟩
      · rw [Parser.prevElement_hit hc] at h
        simp at h
  | succ n ih =>
      intro p q e hb h
      rcases hc : isElem p.focus with _ | _
      · rcases hn : p.Prev with ⟨q', oe⟩
        rcases oe with _ | e'
        · rw [Parser.prevElement_step hc hn] at h
          have hs := Parser.prev_ok_spec hn
          obtain ⟨he, hel, hqn, k, hk⟩ := ih q' q e (by omega) h
          refine ⟨he, hel, hqn, k + 1, ?_⟩
          simp only [Parser.prevN]
          rw [hn]
          exact hk
        · rw [Parser.prevElement_exhaust hc hn] at h
          injection h with h1 h2
          injection h2 with h2
          subst h1
          obtain ⟨hq, _, hctx⟩ := Parser.prev_fail hn
          subst hq
          exact ⟨h2.symm, hc, Parser.prev_fail_of hctx, 0, rfl⟩
      · rw [Parser.prevElement_hit hc] at h
        simp at h

/-- Transfer of the level invariant along an operation that keeps the
level/depth difference. -/
theorem Parser.inv_transfer {p q : Parser}
    (h : q.level - q.ctx.length = p.level - p.ctx.length) (hp : p.inv) : q.inv := by
  unfold Parser.inv at hp ⊢
  omega

/-- Fixture: a document-node payload. -/
def dDoc : NodeData := ⟨.DocumentNode, 0⟩

/-- Fixture: a text-node payload. -/
def dText : NodeData := ⟨.TextNode, 0⟩

/-- Fixture: an element payload carrying the meta atom. -/
def dMeta : NodeData := ⟨.ElementNode, atomMeta⟩

/-- Fixture: a two-node document, a root with one text child. -/
def exDoc : HTree := .mk dDoc [.mk dText []]

/-- Fixture: the cursor on the text child of `exDoc`. -/
def exChild : Parser := ⟨exDoc, [⟨dDoc, [], []⟩], .mk dText [], 1⟩

/-- Fixture: a single-node document. -/
def exLeaf : HTree := .mk dDoc []

/-- Fixture: a document whose root has two meta-element children. -/
def exTwoMeta : HTree := .mk dDoc [.mk dMeta [], .mk dMeta []]

/-- Fixture: the cursor on the first meta child of `exTwoMeta`. -/
def exMeta1 : Parser := ⟨exTwoMeta, [⟨dDoc, [], [.mk dMeta []]⟩], .mk dMeta [], 1⟩

/-- Fixture: the cursor on the second meta child of `exTwoMeta`. -/
def exMeta2 : Parser := ⟨exTwoMeta, [⟨dDoc, [.mk dMeta []], []⟩], .mk dMeta [], 1⟩

/-- Fixture: a document whose root has one meta-element child. -/
def exMetaDoc : HTree := .mk dDoc [.mk dMeta []]

/-- C1: starting with the cursor at the root (the state after construction
or `Reset`), repeatedly calling `Next` visits every node of the tree exactly
once, in pre-order (`run` collects the visited payloads and equals the
pre-order listing), and the call on the last node fails with `ErrEndOfDoc`;
symmetrically, starting from the last node in document order — the deepest
trailing descendant of the root, `(NewParser doc).descend` — repeated `Prev`
visits the same nodes in exact reverse order, and the call at the root fails
with `ErrBegOfDoc`.  Both failing calls leave the cursor where it stood. -/
theorem C1_preorder_walk (doc : HTree) :
    (NewParser doc).run = doc.preorder ∧
    ((NewParser doc).descend).prevRun = doc.preorder.reverse ∧
    ((NewParser doc).descend).Next = ((NewParser doc).descend, some .EndOfDoc) ∧
    (NewParser doc).Prev = (NewParser doc, some .BegOfDoc) := by
  refine ⟨?_, ?_, ?_, ?_⟩
  · rw [Parser.run_eq (NewParser doc).after _ le_rfl]
    simp [Parser.remaining, NewParser, restCtx]
  · rw [Parser.prevRun_eq ((NewParser doc).descend).before _ le_rfl]
    rw [Parser.descend_seen]
    simp [NewParser, seenCtx]
  · exact Parser.next_fail_of (Parser.descend_kids _) (Parser.descend_rightsEmpty _ rfl)
  · exact Parser.prev_fail_of rfl

/-- C2: `Next` and `Prev` are exact inverses on the interior of the
document.  Whenever `Next` succeeds, the following `Prev` succeeds and
restores the entire cursor state — current node and depth counter included —
and symmetrically whenever `Prev` succeeds, the following `Next` restores
everything. -/
theorem C2_next_prev_inverse (p q : Parser) :
    (p.Next = (q, none) → q.Prev = (p, none)) ∧
    (p.Prev = (q, none) → q.Next = (p, none)) :=
  ⟨Parser.next_prev, Parser.prev_next⟩

/-- C2 witness: on the two-node document, stepping forward from the root and
stepping back from the child are inverse to each other. -/
theorem C2_witness :
    Parser.Prev exChild = (NewParser exDoc, none) ∧
    Parser.Next (NewParser exDoc) = (exChild, none) :=
  ⟨(C2_next_prev_inverse (NewParser exDoc) exChild).1 (by decide),
   (C2_next_prev_inverse exChild (NewParser exDoc)).2 (by decide)⟩

/-- C3: whenever `Next` fails it returns `ErrEndOfDoc` and the cursor's
state — current node, context and depth — is exactly what it was before the
call: the ascending sibling search rolls back fully instead of leaving the
cursor at the root or an intermediate ancestor. -/
theorem C3_next_failure_rolls_back (p q : Parser) (e : Err)
    (h : p.Next = (q, some e)) : q = p ∧ e = .EndOfDoc :=
  ⟨(Parser.next_fail h).1, (Parser.next_fail h).2.1⟩

/-- C3 witness: on the text child of the two-node document, `Next` fails
with `ErrEndOfDoc` and the state is unchanged. -/
theorem C3_witness : exChild = exChild ∧ Err.EndOfDoc = Err.EndOfDoc :=
  C3_next_failure_rolls_back exChild exChild .EndOfDoc
    (Parser.next_fail_of rfl (by decide))

/-- C10: when the current node is already an element, `NextElement` and
`PrevElement` succeed immediately without moving: both return with the
state — current node and depth — unchanged, applying `Next`/`Prev` zero
times. -/
theorem C10_element_filter_stays_put (p : Parser) (h : isElem p.focus = true) :
    p.NextElement = (p, none) ∧ p.PrevElement = (p, none) :=
  ⟨Parser.nextElement_hit h, Parser.prevElement_hit h⟩

/-- C10 witness: on a cursor standing on a meta element, both filtered
traversals return in place. -/
theorem C10_witness :
    Parser.NextElement exMeta1 = (exMeta1, none) ∧
    Parser.PrevElement exMeta1 = (exMeta1, none) :=
  C10_element_filter_stays_put exMeta1 (by decide)

/-- C4: the `level` counter always equals the true tree-depth of the current
node relative to the root (root at depth 0; in the zipper presentation the
true depth is the number of ancestor frames, `p.ctx.length`).  The invariant
holds after construction and after `Reset`, and every operation preserves
it; moreover a successful `Parent` decrements the counter by exactly 1,
successful `FirstChild`/`LastChild` increment it by exactly 1, and
successful `NextSibling`/`PrevSibling` leave it unchanged. -/
theorem C4_level_tracks_depth (p : Parser) (doc : HTree) (a : Nat) (h : p.inv) :
    (NewParser doc).inv ∧ p.Reset.inv ∧ p.Reset.level = 0 ∧
    (p.Parent).1.inv ∧ (p.FirstChild).1.inv ∧ (p.LastChild).1.inv ∧
    (p.NextSibling).1.inv ∧ (p.PrevSibling).1.inv ∧
    (p.Next).1.inv ∧ (p.Prev).1.inv ∧
    (p.NextElement).1.inv ∧ (p.PrevElement).1.inv ∧
    (p.FirstElementByAtom a).1.inv ∧ (p.NextElementByAtom a).1.inv ∧
    ((p.Parent).2 = none → (p.Parent).1.level = p.level - 1) ∧
    ((p.FirstChild).2 = none → (p.FirstChild).1.level = p.level + 1) ∧
    ((p.LastChild).2 = none → (p.LastChild).1.level = p.level + 1) ∧
    ((p.NextSibling).2 = none → (p.NextSibling).1.level = p.level) ∧
    ((p.PrevSibling).2 = none → (p.PrevSibling).1.level = p.level) := by
  have hReset : p.Reset.inv := by simp [Parser.Reset, Parser.inv]
  refine ⟨by simp [NewParser, Parser.inv], hReset, rfl,
    Parser.inv_transfer (Parser.parent_delta p) h,
    Parser.inv_transfer (Parser.firstChild_delta p) h,
    Parser.inv_transfer (Parser.lastChild_delta p) h,
    Parser.inv_transfer (Parser.nextSibling_delta p) h,
    Parser.inv_transfer (Parser.prevSibling_delta p) h,
    Parser.inv_transfer (Parser.next_delta p) h,
    Parser.inv_transfer (Parser.prev_delta p) h,
    Parser.inv_transfer (Parser.nextElement_delta p.after p le_rfl) h,
    Parser.inv_transfer (Parser.prevElement_delta p.before p le_rfl) h,
    ?_, ?_, ?_, ?_, ?_, ?_, ?_⟩
  · rcases hn : p.Reset.Next with ⟨q, oe⟩
    rcases oe with _ | e
    · have heq : p.FirstElementByAtom a = Parser.findAtomLoop a q := by
        unfold Parser.FirstElementByAtom
        rw [hn]
      rw [heq]
      exact Parser.inv_transfer (Parser.findLoop_delta q.after a q le_rfl)
        (Parser.inv_transfer (Parser.next_ok_spec hn).2.2.1 hReset)
    · have heq : p.FirstElementByAtom a = (q, some e) := by
        unfold Parser.FirstElementByAtom
        rw [hn]
      rw [heq]
      obtain ⟨hq, _, _, _⟩ := Parser.next_fail hn
      subst hq
      exact hReset
  · rcases hn : p.Next with ⟨q, oe⟩
    rcases oe with _ | e
    · have heq : p.NextElementByAtom a = Parser.findAtomLoop a q := by
        unfold Parser.NextElementByAtom
        rw [hn]
      rw [heq]
      exact Parser.inv_transfer (Parser.findLoop_delta q.after a q le_rfl)
        (Parser.inv_transfer (Parser.next_ok_spec hn).2.2.1 h)
    · have heq : p.NextElementByAtom a = (q, some e) := by
        unfold Parser.NextElementByAtom
        rw [hn]
      rw [heq]
      obtain ⟨hq, _, _, _⟩ := Parser.next_fail hn
      subst hq
      exact h
  · intro h2
    rcases hc : p.ctx with _ | ⟨f, rest⟩
    · simp [Parser.Parent, hc] at h2
    · simp [Parser.Parent, hc]
  · intro h2
    rcases hf : p.focus with ⟨d, _ | ⟨c, cs⟩⟩
    · simp [Parser.FirstChild, hf] at h2
    · simp [Parser.FirstChild, hf]
  · intro h2
    rcases hf : p.focus with ⟨d, _ | ⟨c, cs⟩⟩
    · simp [Parser.LastChild, hf] at h2
    · simp [Parser.LastChild, hf]
  · intro h2
    rcases hc : p.ctx with _ | ⟨⟨d, l, r⟩, rest⟩
    · simp [Parser.NextSibling, hc] at h2
    · rcases r with _ | ⟨y, r⟩
      · simp [Parser.NextSibling, hc] at h2
      · simp [Parser.NextSibling, hc]
  · intro h2
    rcases hc : p.ctx with _ | ⟨⟨d, l, r⟩, rest⟩
    · simp [Parser.PrevSibling, hc] at h2
    · rcases l with _ | ⟨x, l⟩
      · simp [Parser.PrevSibling, hc] at h2
      · simp [Parser.PrevSibling, hc]

/-- C4 witness: the invariant holds at the root of the two-node document and
is preserved there by every operation; the successful `FirstChild` from the
root raises the level to 1. -/
theorem C4_witness :
    (NewParser exDoc).inv ∧
    ((NewParser exDoc).Parent).1.inv ∧ ((NewParser exDoc).FirstChild).1.inv ∧
    ((NewParser exDoc).FirstChild).1.level = (NewParser exDoc).level + 1 := by
  have hinv : (NewParser exDoc).inv := by simp [NewParser, Parser.inv]
  have hc := C4_level_tracks_depth (NewParser exDoc) exDoc atomMeta hinv
  exact ⟨hc.1, hc.2.2.2.1, hc.2.2.2.2.1,
    hc.2.2.2.2.2.2.2.2.2.2.2.2.2.2.2.1 (by decide)⟩

/-- The `NextSibling` pointer of the current node, read off the zipper:
`nil` at the root and on a last child, else the next sibling subtree. -/
def Parser.nextSiblingLink (p : Parser) : Option HTree :=
  match p.ctx with
  | [] => none
  | f :: _ => f.right.head?

/-- The `PrevSibling` pointer of the current node, read off the zipper:
`nil` at the root and on a first child, else the previous sibling subtree. -/
def Parser.prevSiblingLink (p : Parser) : Option HTree :=
  match p.ctx with
  | [] => none
  | f :: _ => f.left.head?

/-- C5: each primitive move fails exactly when the corresponding pointer of
the current node is nil — `Parent` iff the context is empty (the root is the
only node with a nil parent), `FirstChild`/`LastChild` iff the child list is
empty (nil first/last child pointer), `NextSibling`/`PrevSibling` iff the
corresponding sibling pointer is nil — and every failure returns
`ErrNoSuchRelative` with the state (current node, context and level)
entirely unchanged. -/
theorem C5_primitive_failure (p : Parser) :
    ((p.Parent).2 ≠ none ↔ p.ctx = []) ∧
    ((p.Parent).2 ≠ none → p.Parent = (p, some .NoSuchRelative)) ∧
    ((p.FirstChild).2 ≠ none ↔ p.focus.kids.head? = none) ∧
    ((p.FirstChild).2 ≠ none → p.FirstChild = (p, some .NoSuchRelative)) ∧
    ((p.LastChild).2 ≠ none ↔ p.focus.kids.getLast? = none) ∧
    ((p.LastChild).2 ≠ none → p.LastChild = (p, some .NoSuchRelative)) ∧
    ((p.NextSibling).2 ≠ none ↔ p.nextSiblingLink = none) ∧
    ((p.NextSibling).2 ≠ none → p.NextSibling = (p, some .NoSuchRelative)) ∧
    ((p.PrevSibling).2 ≠ none ↔ p.prevSiblingLink = none) ∧
    ((p.PrevSibling).2 ≠ none → p.PrevSibling = (p, some .NoSuchRelative)) := by
  refine ⟨?_, ?_, ?_, ?_, ?_, ?_, ?_, ?_, ?_, ?_⟩
  · rcases hc : p.ctx with _ | ⟨f, rest⟩ <;> simp [Parser.Parent, hc]
  · rcases hc : p.ctx with _ | ⟨f, rest⟩ <;> simp [Parser.Parent, hc]
  · rcases hf : p.focus with ⟨d, _ | ⟨c, cs⟩⟩ <;>
      simp [Parser.FirstChild, hf, HTree.kids]
  · rcases hf : p.focus with ⟨d, _ | ⟨c, cs⟩⟩ <;>
      simp [Parser.FirstChild, hf, HTree.kids]
  · rcases hf : p.focus with ⟨d, _ | ⟨c, cs⟩⟩ <;>
      simp [Parser.LastChild, hf, HTree.kids]
  · rcases hf : p.focus with ⟨d, _ | ⟨c, cs⟩⟩ <;>
      simp [Parser.LastChild, hf, HTree.kids]
  · rcases hc : p.ctx with _ | ⟨⟨d, l, r⟩, rest⟩
    · simp [Parser.NextSibling, Parser.nextSiblingLink, hc]
    · rcases r with _ | ⟨y, r⟩ <;>
        simp [Parser.NextSibling, Parser.nextSiblingLink, hc]
  · rcases hc : p.ctx with _ | ⟨⟨d, l, r⟩, rest⟩
    · simp [Parser.NextSibling, Parser.nextSiblingLink, hc]
    · rcases r with _ | ⟨y, r⟩ <;>
        simp [Parser.NextSibling, Parser.nextSiblingLink, hc]
  · rcases hc : p.ctx with _ | ⟨⟨d, l, r⟩, rest⟩
    · simp [Parser.PrevSibling, Parser.prevSiblingLink, hc]
    · rcases l with _ | ⟨x, l⟩ <;>
        simp [Parser.PrevSibling, Parser.prevSiblingLink, hc]
  · rcases hc : p.ctx with _ | ⟨⟨d, l, r⟩, rest⟩
    · simp [Parser.PrevSibling, Parser.prevSiblingLink, hc]
    · rcases l with _ | ⟨x, l⟩ <;>
        simp [Parser.PrevSibling, Parser.prevSiblingLink, hc]

/-- C5 witness: on the childless root of the single-node document, all five
primitive moves fail with `ErrNoSuchRelative` and leave the state
untouched. -/
theorem C5_witness :
    (NewParser exLeaf).Parent = (NewParser exLeaf, some .NoSuchRelative) ∧
    (NewParser exLeaf).FirstChild = (NewParser exLeaf, some .NoSuchRelative) ∧
    (NewParser exLeaf).LastChild = (NewParser exLeaf, some .NoSuchRelative) ∧
    (NewParser exLeaf).NextSibling = (NewParser exLeaf, some .NoSuchRelative) ∧
    (NewParser exLeaf).PrevSibling = (NewParser exLeaf, some .NoSuchRelative) := by
  have hc := C5_primitive_failure (NewParser exLeaf)
  exact ⟨hc.2.1 (by decide), hc.2.2.2.1 (by decide), hc.2.2.2.2.2.1 (by decide),
    hc.2.2.2.2.2.2.2.1 (by decide), hc.2.2.2.2.2.2.2.2.2 (by decide)⟩

/-- C6: `Prev` mirrors `Next`.  With a previous sibling present (top frame
left part `x :: l`), `Prev` moves to that sibling `x` and descends its
last-child chain to the deepest trailing descendant — and the descent stops
exactly on a childless node, staying on the sibling itself when it has no
children.  With no previous sibling but a parent present, `Prev` ascends
exactly one level.  At the root (empty context) `Prev` fails with
`ErrBegOfDoc`, position and depth unchanged. -/
theorem C6_prev_mirror (p : Parser) (d : NodeData) (x : HTree) (l r : List HTree)
    (rest : List Frame) (q : Parser) :
    (p.ctx = ⟨d, x :: l, r⟩ :: rest →
      p.Prev = (Parser.descend ⟨p.doc, ⟨d, l, p.focus :: r⟩ :: rest, x, p.level⟩, none)) ∧
    q.descend.focus.kids = [] ∧
    (q.focus.kids = [] → q.descend = q) ∧
    (p.ctx = ⟨d, [], r⟩ :: rest →
      p.Prev = (⟨p.doc, rest, .mk d (p.focus :: r), p.level - 1⟩, none)) ∧
    (p.ctx = [] → p.Prev = (p, some .BegOfDoc)) := by
  refine ⟨?_, Parser.descend_kids q, ?_, ?_, fun hc => Parser.prev_fail_of hc⟩
  · intro hc
    obtain ⟨doc, ctx, t, lvl⟩ := p
    have : ctx = ⟨d, x :: l, r⟩ :: rest := hc
    subst this
    exact Parser.prev_sib doc d x l r rest t lvl
  · intro hk
    obtain ⟨doc, ctx, ⟨fd, fk⟩, lvl⟩ := q
    have : fk = [] := hk
    subst this
    exact Parser.descend_leaf doc ctx fd lvl
  · intro hc
    obtain ⟨doc, ctx, t, lvl⟩ := p
    have : ctx = ⟨d, [], r⟩ :: rest := hc
    subst this
    exact Parser.prev_up doc d r rest t lvl

/-- C6 witness: on the two-meta document, `Prev` from the second meta lands
on the first meta (previous sibling, no children to descend into); on the
two-node document, `Prev` from the text child ascends to the root, and
`Prev` at the root fails with `ErrBegOfDoc` in place. -/
theorem C6_witness :
    Parser.Prev exMeta2 = (exMeta1, none) ∧
    Parser.Prev exChild = (⟨exDoc, [], exDoc, 0⟩, none) ∧
    Parser.Prev (NewParser exDoc) = (NewParser exDoc, some .BegOfDoc) := by
  refine ⟨?_, ?_, ?_⟩
  · have h := (C6_prev_mirror exMeta2 dDoc (.mk dMeta []) [] [] [] exMeta2).1 rfl
    rw [h, Parser.descend_leaf]
    decide
  · have h := (C6_prev_mirror exChild dDoc (.mk dText []) [] [] [] exChild).2.2.2.1 rfl
    rw [h]
    decide
  · exact (C6_prev_mirror (NewParser exDoc) dDoc exDoc [] [] [] (NewParser exDoc)).2.2.2.2 rfl

/-- C7: `FirstElementByAtom` resets the cursor to the root (depth 0), steps
`Next` once, then searches forward; so the root itself is never tested, and
on success the returned node is the first element with the requested atom
among the nodes after the root in document order (`List.find?` over the tail
of the pre-order).  On failure it propagates the underlying `ErrEndOfDoc`
and leaves the cursor at the exhausted end position, the last node of the
document (the deepest trailing descendant of the root).  `FirstMeta` is
exactly this search with the meta atom, so on a document with no meta tag it
fails with `ErrEndOfDoc` with the cursor on the last node. -/
theorem C7_first_element_search (p : Parser) (a : Nat) :
    ((p.FirstElementByAtom a).2 = none →
      List.find? (matchAtom a) p.doc.preorder.tail
          = some ((p.FirstElementByAtom a).1.focus.data) ∧
      matchAtom a ((p.FirstElementByAtom a).1.focus.data) = true) ∧
    (∀ e, (p.FirstElementByAtom a).2 = some e →
      e = .EndOfDoc ∧
      (p.FirstElementByAtom a).1 = (NewParser p.doc).descend ∧
      List.find? (matchAtom a) p.doc.preorder.tail = none) ∧
    p.FirstMeta = p.FirstElementByAtom atomMeta := by
  obtain ⟨doc0, ctx0, t0, lvl0⟩ := p
  obtain ⟨dd, dk⟩ := doc0
  have htail : (HTree.mk dd dk).preorder.tail = preorderList dk := by
    simp [HTree.preorder]
  rcases hn : Parser.Next ⟨.mk dd dk, [], .mk dd dk, 0⟩ with ⟨q, oe⟩
  rcases oe with _ | e1
  · rcases hres : Parser.findAtomLoop a q with ⟨q2, oe2⟩
    have heq : Parser.FirstElementByAtom ⟨.mk dd dk, ctx0, t0, lvl0⟩ a = (q2, oe2) := by
      unfold Parser.FirstElementByAtom
      rw [show Parser.Reset ⟨HTree.mk dd dk, ctx0, t0, lvl0⟩
          = ⟨.mk dd dk, [], .mk dd dk, 0⟩ from rfl, hn]
      exact hres
    have hs := Parser.next_ok_spec hn
    have hrem : q.remaining = preorderList dk := by
      have h5 := hs.2.2.2.2
      simp [Parser.remaining, restCtx, HTree.preorder, HTree.data] at h5
      exact h5.symm
    rw [heq, htail]
    rcases oe2 with _ | e2
    · have hok := Parser.findLoop_ok_spec q.after a q q2 le_rfl hres
      refine ⟨fun _ => ⟨?_, hok.2.2⟩, ?_, rfl⟩
      · rw [← hrem]
        exact hok.1
      · intro e h2
        simp at h2
    · have hfail := Parser.findLoop_fail_spec q.after a q q2 e2 le_rfl hres
      obtain ⟨he2, hfind, hkids, hre, hdoc2, hdelta2, hplug2⟩ := hfail
      refine ⟨fun h2 => by simp at h2, ?_, rfl⟩
      intro e h2
      simp at h2
      subst h2
      have hqdoc : q.doc = .mk dd dk := hs.2.2.2.1
      have hqdelta : q.level - q.ctx.length = 0 := by
        have h3 := hs.2.2.1
        simpa using h3
      have hqplug : q.plug = .mk dd dk := by
        have h4 := Parser.next_ok_plug hn
        simpa [Parser.plug, plugCtx] using h4
      refine ⟨he2, ?_, by rw [← hrem]; exact hfind⟩
      obtain ⟨q2d, q2c, q2f, q2l⟩ := q2
      have hq2d : q2d = .mk dd dk := by
        have h6 := hdoc2
        simp at h6
        rw [hqdoc] at h6
        exact h6
      have hlvl : q2l = (q2c.length : Int) := by
        have h7 := hdelta2
        simp at h7
        omega
      have hplugc : plugCtx q2c q2f = .mk dd dk := by
        have h8 := hplug2
        simp [Parser.plug] at h8
        rw [h8]
        exact hqplug
      have hre2 : rightsEmpty q2c = true := hre
      have hlu := Parser.lastpos_unique q2c (.mk dd dk) q2f q2l hre2 hlvl
      rw [hplugc] at hlu
      obtain ⟨fd, fk⟩ := q2f
      have hfk : fk = [] := hkids
      subst hfk
      rw [Parser.descend_leaf] at hlu
      subst hq2d
      exact hlu.symm
  · have hnf := Parser.next_fail hn
    obtain ⟨hq, he1, hkids, _⟩ := hnf
    have hdk : dk = [] := hkids
    subst hdk
    subst hq
    have heq : Parser.FirstElementByAtom ⟨.mk dd [], ctx0, t0, lvl0⟩ a
        = (⟨.mk dd [], [], .mk dd [], 0⟩, some e1) := by
      unfold Parser.FirstElementByAtom
      rw [show Parser.Reset ⟨HTree.mk dd [], ctx0, t0, lvl0⟩
          = ⟨.mk dd [], [], .mk dd [], 0⟩ from rfl, hn]
    rw [heq, htail]
    refine ⟨fun h2 => by simp at h2, ?_, rfl⟩
    intro e h2
    simp at h2
    subst h2
    refine ⟨he1, ?_, by simp [preorderList]⟩
    rw [show NewParser (.mk dd []) = ⟨.mk dd [], [], .mk dd [], 0⟩ from rfl,
      Parser.descend_leaf]

/-- C7 witness: on the meta-free two-node document, `FirstElementByAtom`
with the meta atom (i.e. `FirstMeta`) fails leaving the cursor on the last
node, and no match exists after the root; on the document with one meta
child it succeeds and the returned payload is the first match. -/
theorem C7_witness :
    ((NewParser exDoc).FirstElementByAtom atomMeta).1 = (NewParser exDoc).descend ∧
    List.find? (matchAtom atomMeta) exDoc.preorder.tail = none ∧
    List.find? (matchAtom atomMeta) exMetaDoc.preorder.tail
      = some (((NewParser exMetaDoc).FirstElementByAtom atomMeta).1.focus.data) := by
  have hres : (NewParser exDoc).FirstElementByAtom atomMeta
      = (exChild, some .EndOfDoc) := by
    unfold Parser.FirstElementByAtom
    rw [show (NewParser exDoc).Reset = NewParser exDoc from rfl]
    rw [show (NewParser exDoc).Next = (exChild, none) from by decide]
    exact Parser.findLoop_exhaust (by decide) (Parser.next_fail_of rfl (by decide))
  have happ := (C7_first_element_search (NewParser exDoc) atomMeta).2.1
    .EndOfDoc (by rw [hres])
  have hres2 : (NewParser exMetaDoc).FirstElementByAtom atomMeta
      = (⟨exMetaDoc, [⟨dDoc, [], []⟩], .mk dMeta [], 1⟩, none) := by
    unfold Parser.FirstElementByAtom
    rw [show (NewParser exMetaDoc).Reset = NewParser exMetaDoc from rfl]
    rw [show (NewParser exMetaDoc).Next
        = (⟨exMetaDoc, [⟨dDoc, [], []⟩], .mk dMeta [], 1⟩, none) from by decide]
    exact Parser.findLoop_hit (by decide)
  have happ2 := (C7_first_element_search (NewParser exMetaDoc) atomMeta).1
    (by rw [hres2])
  exact ⟨happ.2.1, happ.2.2, happ2.1⟩

/-- C8: `NextElementByAtom` applies `Next` at least once before testing any
node, so on success it never returns the node the cursor stood on: the
landing position is strictly later in document order (strictly more nodes
lie before it), and it matches the requested atom. -/
theorem C8_next_by_tag_strictly_forward (p q : Parser) (a : Nat)
    (h : p.NextElementByAtom a = (q, none)) :
    p.before < q.before ∧ matchAtom a q.focus.data = true := by
  rcases hn : p.Next with ⟨q1, oe⟩
  rcases oe with _ | e
  · have heq : p.NextElementByAtom a = Parser.findAtomLoop a q1 := by
      unfold Parser.NextElementByAtom
      rw [hn]
    rw [heq] at h
    have hok := Parser.findLoop_ok_spec q1.after a q1 q le_rfl h
    have hs := Parser.next_ok_spec hn
    exact ⟨by omega, hok.2.2⟩
  · have heq : p.NextElementByAtom a = (q1, some e) := by
      unfold Parser.NextElementByAtom
      rw [hn]
    rw [heq] at h
    simp at h

/-- C8 witness: from the first meta child of the two-meta document,
`NextElementByAtom` with the meta atom lands on the second meta child, a
strictly later position, and never on the matching node it stood on. -/
theorem C8_witness :
    Parser.before exMeta1 < Parser.before exMeta2 ∧
    matchAtom atomMeta exMeta2.focus.data = true := by
  have hnext : exMeta1.Next = (exMeta2, none) :=
    Parser.next_ok_of_ascend rfl
      (Parser.ascend_sib exTwoMeta dDoc [] (.mk dMeta []) [] [] (.mk dMeta []) 1)
  have hres : exMeta1.NextElementByAtom atomMeta = (exMeta2, none) := by
    unfold Parser.NextElementByAtom
    rw [hnext]
    exact Parser.findLoop_hit (by decide)
  exact C8_next_by_tag_strictly_forward exMeta1 exMeta2 atomMeta hres

/-- C9: `NextElement` and `PrevElement` repeatedly step until the current
node is an element; when the underlying step fails they report
`ErrEndOfDoc`/`ErrBegOfDoc` and do NOT roll back: the cursor stays wherever
the last successful step landed — a non-element position, reached from the
start by successful steps, on which the next step itself fails. -/
theorem C9_filtered_no_rollback (p q : Parser) (e : Err) :
    (p.NextElement = (q, some e) → e = .EndOfDoc ∧ isElem q.focus = false ∧
      q.Next = (q, some .EndOfDoc) ∧ ∃ k, Parser.nextN k p = some q) ∧
    (p.PrevElement = (q, some e) → e = .BegOfDoc ∧ isElem q.focus = false ∧
      q.Prev = (q, some .BegOfDoc) ∧ ∃ k, Parser.prevN k p = some q) :=
  ⟨fun h => Parser.nextElement_fail_spec p.after p q e le_rfl h,
   fun h => Parser.prevElement_fail_spec p.before p q e le_rfl h⟩

/-- C9 witness: on the two-node document `NextElement` from the root fails
with `ErrEndOfDoc` leaving the cursor parked on the text child (one
successful step later, not rolled back to the root), and `PrevElement` from
the text child fails with `ErrBegOfDoc` leaving the cursor parked on the
root. -/
theorem C9_witness :
    (Err.EndOfDoc = Err.EndOfDoc ∧ isElem exChild.focus = false ∧
      exChild.Next = (exChild, some .EndOfDoc) ∧
      ∃ k, Parser.nextN k (NewParser exDoc) = some exChild) ∧
    (Err.BegOfDoc = Err.BegOfDoc ∧ isElem (NewParser exDoc).focus = false ∧
      (NewParser exDoc).Prev = (NewParser exDoc, some .BegOfDoc) ∧
      ∃ k, Parser.prevN k exChild = some (NewParser exDoc)) := by
  have h1 : (NewParser exDoc).NextElement = (exChild, some .EndOfDoc) := by
    rw [Parser.nextElement_step (by decide)
      (show (NewParser exDoc).Next = (exChild, none) from by decide)]
    exact Parser.nextElement_exhaust (by decide)
      (Parser.next_fail_of rfl (by decide))
  have h2 : exChild.PrevElement = (NewParser exDoc, some .BegOfDoc) := by
    rw [Parser.prevElement_step (by decide)
      (show exChild.Prev = (NewParser exDoc, none) from by decide)]
    exact Parser.prevElement_exhaust (by decide) (Parser.prev_fail_of rfl)
  exact ⟨(C9_filtered_no_rollback (NewParser exDoc) exChild .EndOfDoc).1 h1,
    (C9_filtered_no_rollback exChild (NewParser exDoc) .BegOfDoc).2 h2⟩
